import Mathlib

/-
Verification of `non_exclusive_aggregation.py`: a shallow embedding of the
single source file's aggregation engine (`parse_mapping` and
`all_combos_non_exclusive_agg`) together with proofs about it.

Pandas dataframes are embedded as a column list plus rows (each row a function
from column name to cell value); the engine's stages — group-column synthesis,
column selection, `"__ALL__"` total-code insertion, indicator ("pivot")
expansion, the first `groupby/agg`, the per-dimension `melt` loop, the final
regroup, the grand-total append and the `keep_empty` product fill — are each
modelled by a definition that mirrors the corresponding source lines.
`aggargs` is fixed to the per-value-column `"sum"` that every call in the
repository uses.  Row order of grouped output is first-appearance order rather
than pandas' sorted order; no property below depends on row order.
-/

/-- Raw cell values of a dataframe: the repository's datasets hold integers
(ages, counts) and strings (codes); `Val` covers both. -/
inductive Val where
  | i (n : Int)
  | s (str : String)
deriving DecidableEq

/-- Python `str(x)` on the values the repository uses. -/
def Val.toStr : Val → String
  | .i n => toString n
  | .s str => str

/-- Numeric reading of a cell, used by the `"sum"` aggregation (every call of the
repository passes integer value columns). -/
def Val.toInt : Val → Int
  | .i n => n
  | .s _ => 0

/-- A dataframe row: a cell value for each column name. -/
def Row : Type := String → Val

/-- A pandas DataFrame: a list of column names plus the rows. -/
structure DF where
  cols : List String
  rows : List Row

/-- A membership spec of one label (`list[Any] | str` in the source): either an
explicit list of raw values or the `"__ALL__"` sentinel string. -/
inductive Spec where
  | all
  | vals (vs : List Val)
deriving DecidableEq

/-- An ordered dict `label -> membership spec`: one dimension of
`category_mappings`. -/
abbrev Dim := List (String × Spec)

/-- The ordered dict `category_mappings : dimension name -> dimension`. -/
abbrev CatMap := List (String × Dim)

/-- Errors raised by the source: `ValueError` (the explicit raise at line 106,
pandas' "No group keys passed", numpy shape errors) and `KeyError` (missing
columns in `df[...]`, missing dict keys). -/
inductive AggError where
  | valueError (msg : String)
  | keyError (msg : String)
deriving DecidableEq

/-- Worker for `uniqueList`: keeps the elements not seen before, in order. -/
def uniqueGo {α : Type} [DecidableEq α] (seen : List α) : List α → List α
  | [] => []
  | a :: rest =>
    if a ∈ seen then uniqueGo seen rest else a :: uniqueGo (a :: seen) rest

/-- List of distinct elements in first-appearance order: `pd.Series.unique()`. -/
def uniqueList {α : Type} [DecidableEq α] (l : List α) : List α :=
  uniqueGo [] l

/-- Lookup in an ordered dict (the unique entry, Python dicts having no
duplicate keys; on a list with duplicates, the first). -/
def dlookup {α : Type} (k : String) : List (String × α) → Option α
  | [] => none
  | p :: d => if p.1 = k then some p.2 else dlookup k d

/-- Lookup with a default. -/
def dlookupD {α : Type} (d : List (String × α)) (k : String) (v₀ : α) : α :=
  (dlookup k d).getD v₀

/-- Python dict assignment `d[k] = v`: overwrites in place if the key exists,
otherwise appends a new entry at the end (insertion-order semantics). -/
def dictInsert {α : Type} (d : List (String × α)) (k : String) (v : α) :
    List (String × α) :=
  if k ∈ d.map Prod.fst then d.map (fun p => if p.1 = k then (k, v) else p)
  else d ++ [(k, v)]

/-- Model of `parse_mapping` (src 8-12): the `"__ALL__"` sentinel resolves to the
distinct values currently present in the raw column `x`, computed fresh from the
column passed in; any other spec is returned unchanged. -/
def parse_mapping : Spec → List Val → List Val
  | .all, x => uniqueList x
  | .vals vs, _ => vs

/-- The values of one column of the dataframe (`df[var]`). -/
def colOf (df : DF) (var : String) : List Val :=
  df.rows.map (fun r => r var)

/-- Model of src 108-111: the synthesized identity mapping for a group column,
`dict(zip([str(x) for x in items], [[x] for x in items]))` over the distinct
observed values; duplicate string keys collapse by dict assignment semantics. -/
def synthMapping (vals : List Val) : Dim :=
  (uniqueList vals).foldl (fun acc x => dictInsert acc x.toStr (Spec.vals [x])) []

/-- Model of the loop at src 104-114: raise `ValueError` for a group column
missing from the dataframe, otherwise add an identity dimension for each group
column that has no entry in `category_mappings` (mutating the caller's dict). -/
def addGroupcols (df : DF) : List String → CatMap → Except AggError CatMap
  | [], cm => .ok cm
  | col :: rest, cm =>
    if col ∈ df.cols then
      addGroupcols df rest
        (if col ∈ cm.map Prod.fst then cm
         else cm ++ [(col, synthMapping (colOf df col))])
    else .error (.valueError col)

/-- Model of src 120-122: `category_mappings[var][code] = "__ALL__"` for each
entry of `totalcodes`, raising `KeyError` when `var` is not a dimension. -/
def addAllCodes : List (String × String) → CatMap → Except AggError CatMap
  | [], cm => .ok cm
  | (var, code) :: rest, cm =>
    match dlookup var cm with
    | none => .error (.keyError var)
    | some dim => addAllCodes rest (dictInsert cm var (dictInsert dim code Spec.all))

/-- Model of src 130-134: fill a default total label `"Total"` for every
dimension without an entry in `totalcodes`. -/
def fillTotalDefaults (pivot_vars : List String) (tc : List (String × String)) :
    List (String × String) :=
  pivot_vars.foldl
    (fun acc var => if var ∈ acc.map Prod.fst then acc else acc ++ [(var, "Total")]) tc

/-- Python truthiness of the `totalcodes` argument (`if totalcodes:`): `None` and
the empty dict are falsy. -/
def tcTruthy : Option (List (String × String)) → Bool
  | none => false
  | some tc => !tc.isEmpty

/-- Model of src 143-152 for one label: the indicator value of row `r` under label
`ls` of dimension `var` — the column starts as all `"__NA__"` and is set to the
label wherever `df[var].isin(parse_mapping(spec, df[var]))` holds. -/
def indic (df : DF) (var : String) (ls : String × Spec) (r : Row) : String :=
  if r var ∈ parse_mapping ls.2 (colOf df var) then ls.1 else "__NA__"

/-- One indicator column: the series `y` assigned to `df[pivot_name]` (src 153). -/
def indicatorCol (df : DF) (var : String) (ls : String × Spec) : List String :=
  df.rows.map (indic df var ls)

/-- All indicator columns of one dimension, in label definition order; src
137-153 build exactly `len(category_mappings[var])` of them. -/
def pivotCols (df : DF) (var : String) (dim : Dim) : List (List String) :=
  dim.map (indicatorCol df var)

/-- The tuple of all indicator values of one row, across every dimension and
label in order: the grouping key of `df.groupby(all_pivot_names)` (src 155). -/
def rowKey (df : DF) (cm : CatMap) (r : Row) : List String :=
  cm.flatMap (fun vd => vd.2.map (fun ls => indic df vd.1 ls r))

/-- Per-value-column sum over a list of rows: the model of `.agg(aggargs)`. -/
def aggRows (valuecols : List String) (rows : List Row) : List Int :=
  valuecols.map (fun c => (rows.map (fun r => (r c).toInt)).sum)

/-- Model of `df.groupby(all_pivot_names).agg(aggargs).reset_index()` (src 155):
one row per distinct indicator-key tuple, value columns aggregated over the rows
of that group. -/
def groupby1 (df : DF) (cm : CatMap) (valuecols : List String) :
    List (List String × List Int) :=
  (uniqueList (df.rows.map (rowKey df cm))).map
    (fun k => (k, aggRows valuecols (df.rows.filter (fun r => rowKey df cm r = k))))

/-- A row of the intermediate table inside the melt loop (src 157-164): `done`
holds the already-reconciled dimension label columns, `rest` the not-yet-melted
indicator columns, `vals` the carried value columns (which sit in `id_vars`). -/
structure MRow where
  done : List String
  rest : List String
  vals : List Int
deriving DecidableEq

/-- Model of one round of the loop at src 157-164: `melt` the current dimension's
`ncat` indicator columns into one label column (pandas stacks one block per
melted column) and drop the rows whose label value is the `"__NA__"` marker. -/
def meltDim (ncat : Nat) (rows : List MRow) : List MRow :=
  (List.range ncat).flatMap (fun i =>
    rows.filterMap (fun m =>
      let v := m.rest.getD i "__NA__"
      if v = "__NA__" then none
      else some ⟨m.done ++ [v], m.rest.drop ncat, m.vals⟩))

/-- The melt loop over all dimensions, in `category_mappings` order. -/
def meltAll (ncats : List Nat) (rows : List MRow) : List MRow :=
  ncats.foldl (fun rs n => meltDim n rs) rows

/-- Componentwise sum of two value-column lists. -/
def addVals (a b : List Int) : List Int := List.zipWith (fun x y => x + y) a b

/-- Componentwise sum of many value-column lists (`n` value columns). -/
def sumVals (n : Nat) (l : List (List Int)) : List Int :=
  l.foldr addVals (List.replicate n 0)

/-- Model of `tbl.groupby(pivot_vars).agg(aggargs).reset_index()` (src 166):
merge the partial aggregates that share every dimension label. -/
def regroup (n : Nat) (melted : List MRow) : List (List String × List Int) :=
  (uniqueList (melted.map MRow.done)).map
    (fun k => (k, sumVals n ((melted.filter (fun m => m.done = k)).map MRow.vals)))

/-- Model of src 168-174: overwrite every dimension column of a copy with its
total code and aggregate the whole slice; `groupby` of a dataframe with no rows
produces no groups, so an empty input appends nothing. -/
def grandTotalRows (df : DF) (pivot_vars : List String)
    (tc : List (String × String)) (valuecols : List String) :
    List (List String × List Int) :=
  if df.rows.isEmpty then []
  else [(pivot_vars.map (fun v => dlookupD tc v "Total"), aggRows valuecols df.rows)]

/-- Cartesian product of a list of choice lists, in `itertools.product` order
(rightmost factor varies fastest). -/
def listProd {α : Type} : List (List α) → List (List α)
  | [] => [[]]
  | xs :: rest => xs.flatMap (fun x => (listProd rest).map (fun c => x :: c))

/-- The observed distinct values of each of the `d` dimension columns of the
result (`[tbl[v].unique() for v in pivot_vars]`, src 177). -/
def colUniques (tbl : List (List String × List Int)) (d : Nat) :
    List (List String) :=
  (List.range d).map (fun j => uniqueList (tbl.map (fun p => p.1.getD j "")))

/-- Model of src 176-180: left-merge the result onto the full product of observed
labels; unmatched combinations get a null (`NaN`) aggregate, and a matched
combination keeps every matching result row.  `np.array` of an empty combination
list with two or more key columns raises a shape `ValueError`. -/
def keepEmptyFill (d : Nat) (tbl : List (List String × List Int)) :
    Except AggError (List (List String × Option (List Int))) :=
  let combos := listProd (colUniques tbl d)
  if combos = [] ∧ 2 ≤ d then .error (.valueError "shape")
  else .ok (combos.flatMap (fun c =>
    let ms := tbl.filter (fun p => p.1 = c)
    if ms.isEmpty then [(c, (none : Option (List Int)))]
    else ms.map (fun p => (c, some p.2))))

/-- The state the call threads through src 104-134: the working dataframe copy
(`df = df.copy()[all_cols]`), the mutated `category_mappings`, and the filled
`totalcodes` dict. -/
structure Prepared where
  df2 : DF
  cm2 : CatMap
  tcFilled : List (String × String)

/-- Model of src 104-134: validate and synthesize group columns, select
`valuecols + dims` into a fresh copy (`KeyError` if a name is missing), insert
the `"__ALL__"` total labels when `totalcodes` is truthy, and fill default
`"Total"` codes for the remaining dimensions. -/
def prepare (df : DF) (groupcols : List String) (category_mappings : CatMap)
    (valuecols : List String) (totalcodes : Option (List (String × String))) :
    Except AggError Prepared := do
  let cm1 ← addGroupcols df groupcols category_mappings
  let all_cols := valuecols ++ cm1.map Prod.fst
  if all_cols.all (fun c => c ∈ df.cols) then
    let cm2 ← if tcTruthy totalcodes then addAllCodes (totalcodes.getD []) cm1
              else .ok cm1
    let tc0 := if tcTruthy totalcodes then totalcodes.getD [] else []
    .ok ⟨⟨all_cols, df.rows⟩, cm2, fillTotalDefaults (cm2.map Prod.fst) tc0⟩
  else .error (.keyError "column not found")

/-- Model of src 137-174: indicator expansion, the first groupby, the melt loop,
the final regroup (pandas raises when there is no grouping column at all), and
the optional grand-total append (a plain concat: set union, never an
overwrite). -/
def mainTable (p : Prepared) (valuecols : List String) (grand_total : Bool) :
    Except AggError (List (List String × List Int)) :=
  if p.cm2.flatMap (fun vd => vd.2) = [] then
    .error (.valueError "No group keys passed!")
  else
    let buckets := groupby1 p.df2 p.cm2 valuecols
    let melted := meltAll (p.cm2.map (fun vd => vd.2.length))
      (buckets.map (fun b => ⟨[], b.1, b.2⟩))
    let core := regroup valuecols.length melted
    .ok (if grand_total then
          core ++ grandTotalRows p.df2 (p.cm2.map Prod.fst) p.tcFilled valuecols
         else core)

/-- The caller-observable outcome of a call: the result table, plus the caller's
dataframe and configuration dicts as they stand after the call — the source
mutates `category_mappings` and a truthy `totalcodes` in place, while the
dataframe is copied (src 118) before any column is written. -/
structure AggResult where
  tbl : List (List String × Option (List Int))
  df : DF
  category_mappings : CatMap
  totalcodes : Option (List (String × String))

/-- Model of `all_combos_non_exclusive_agg` (src 15-182), with `aggargs` fixed to
the per-value-column `"sum"` used by every call in the repository. -/
def all_combos_non_exclusive_agg (df : DF) (groupcols : List String)
    (category_mappings : CatMap) (valuecols : List String)
    (totalcodes : Option (List (String × String))) (keep_empty : Bool)
    (grand_total : Bool) : Except AggError AggResult := do
  let p ← prepare df groupcols category_mappings valuecols totalcodes
  let tbl1 ← mainTable p valuecols grand_total
  let tblF ← if keep_empty then keepEmptyFill (p.cm2.map Prod.fst).length tbl1
             else .ok (tbl1.map (fun q => (q.1, some q.2)))
  .ok ⟨tblF, df, p.cm2,
       match totalcodes with
       | none => none
       | some tc => if tc.isEmpty then some tc else some p.tcFilled⟩

/-- Modelled from the claim's filter side: a raw row satisfies a fixed
combination of one label per dimension when, for every dimension, its raw value
lies in the chosen label's fully resolved membership list — logical AND across
dimensions, OR (list membership) within a label's own set. -/
def conjMatch : CatMap → List String → Row → Bool
  | [], [], _ => true
  | vd :: cm, l :: combo, r =>
    (match dlookup l vd.2 with
     | some (.vals vs) => decide (r vd.1 ∈ vs)
     | _ => false) && conjMatch cm combo r
  | _, _, _ => false

/-- The combination picks, positionally, one label from each dimension. -/
def chosenFrom : CatMap → List String → Bool
  | [], [] => true
  | vd :: cm, l :: combo => decide (l ∈ vd.2.map Prod.fst) && chosenFrom cm combo
  | _, _ => false

/-- Every dimension's membership specs are explicit lists (no `"__ALL__"`). -/
def Spec.isResolved : Spec → Bool
  | .all => false
  | .vals _ => true

/-- All ways to pick one non-`"__NA__"` entry from each dimension's chunk of an
indicator key: the combinations the melt loop extracts from one aggregation
bucket. -/
def sels : List Nat → List String → List (List String)
  | [], _ => [[]]
  | n :: ns, rest =>
    ((rest.take n).filter (fun v => v ≠ "__NA__")).flatMap
      (fun v => (sels ns (rest.drop n)).map (fun c => v :: c))

/-- Positional test that a combination is extractable from an indicator key. -/
def selectable : List Nat → List String → List String → Bool
  | [], _, [] => true
  | n :: ns, rest, l :: combo =>
    decide (l ∈ (rest.take n).filter (fun v => v ≠ "__NA__")) &&
      selectable ns (rest.drop n) combo
  | _, _, _ => false

/-- The core result (src 155-166): first groupby, melt loop, final regroup — the
table before the optional grand-total and `keep_empty` passes.  Only the rows of
the working dataframe enter here (`DF.cols` matters only to validation). -/
def coreTable (df2 : DF) (cm : CatMap) (vcs : List String) :
    List (List String × List Int) :=
  regroup vcs.length (meltAll (cm.map (fun vd => vd.2.length))
    ((groupby1 df2 cm vcs).map (fun b => MRow.mk [] b.1 b.2)))

/-- Row-major form of one melt round: the non-`"__NA__"` choices a single
intermediate row contributes (used to characterize `meltDim` up to row order). -/
def expandOne (n : Nat) (m : MRow) : List MRow :=
  (List.range n).filterMap (fun i =>
    let v := m.rest.getD i "__NA__"
    if v = "__NA__" then none
    else some ⟨m.done ++ [v], m.rest.drop n, m.vals⟩)

/-- Within each dimension's chunk of an indicator key, the non-marker entries
are pairwise distinct (the labels of a dimension being dict keys). -/
def chunksNodup : List Nat → List String → Prop
  | [], _ => True
  | n :: ns, rest =>
    ((rest.take n).filter (fun v => v ≠ "__NA__")).Nodup ∧ chunksNodup ns (rest.drop n)

/-- Example row (age 2, code "01", count 1) for instantiating theorems. -/
def exRowA1 : Row := fun c => if c = "A" then Val.i 2 else if c = "B" then Val.s "01" else Val.i 1

/-- Example row (age 3, code "02", count 1): matches both "lo" and "mid" below. -/
def exRowA2 : Row := fun c => if c = "A" then Val.i 3 else if c = "B" then Val.s "02" else Val.i 1

/-- Example row (age 9, code "01", count 1). -/
def exRowA3 : Row := fun c => if c = "A" then Val.i 9 else if c = "B" then Val.s "01" else Val.i 1

/-- Example dataframe with two overlapping dimensions and one value column. -/
def exDf : DF := ⟨["A", "B", "n"], [exRowA1, exRowA2, exRowA3]⟩

/-- Example non-exclusive mappings: "lo" and "mid" overlap at raw value 3, and
"b1" and "b2" overlap at raw code "02". -/
def exCm : CatMap :=
  [("A", [("lo", Spec.vals [Val.i 1, Val.i 2, Val.i 3]), ("mid", Spec.vals [Val.i 3, Val.i 9])]),
   ("B", [("b1", Spec.vals [Val.s "01", Val.s "02"]), ("b2", Spec.vals [Val.s "02"])])]

/-- One-row, one-dimension dataframe for the totalcode-collision counterexamples. -/
def exRow1 : Row := fun c => if c = "A" then Val.i 1 else if c = "n" then Val.i 1 else Val.i 0

/-- One-row dataframe over columns A and n. -/
def exDf1 : DF := ⟨["A", "n"], [exRow1]⟩

/-- Single dimension with a single label "x" matching the one raw value. -/
def exCm1 : CatMap := [("A", [("x", Spec.vals [Val.i 1])])]

/-- The empty dataframe over columns A and n (for the grand-total counterexample). -/
def exDfEmpty : DF := ⟨["A", "n"], ([] : List Row)⟩

/-- Example dimension with an empty-spec label, for the pivot-expansion witness. -/
def exDimW : Dim := [("lo", Spec.vals [Val.i 1, Val.i 2, Val.i 3]), ("e", Spec.vals [])]

/-! Basic properties of the embedded pandas primitives. -/

theorem mem_uniqueGo {α : Type} [DecidableEq α] (x : α) :
    ∀ (l seen : List α), x ∈ uniqueGo seen l ↔ x ∈ l ∧ x ∉ seen
  | [], seen => by simp [uniqueGo]
  | a :: l, seen => by
    rw [uniqueGo]
    by_cases ha : a ∈ seen
    · rw [if_pos ha, mem_uniqueGo x l seen]
      constructor
      · rintro ⟨h1, h2⟩
        exact ⟨List.mem_cons.mpr (Or.inr h1), h2⟩
      · rintro ⟨h1, h2⟩
        rcases List.mem_cons.mp h1 with h3 | h3
        · exact absurd (h3 ▸ ha) h2
        · exact ⟨h3, h2⟩
    · rw [if_neg ha]
      by_cases hxa : x = a
      · subst hxa
        constructor
        · intro _
          exact ⟨List.mem_cons_self x l, ha⟩
        · intro _
          exact List.mem_cons_self x _
      · constructor
        · intro h1
          rcases List.mem_cons.mp h1 with h2 | h2
          · exact absurd h2 hxa
          · rcases (mem_uniqueGo x l (a :: seen)).mp h2 with ⟨h3, h4⟩
            exact ⟨List.mem_cons.mpr (Or.inr h3), fun hc => h4 (List.mem_cons.mpr (Or.inr hc))⟩
        · rintro ⟨h1, h2⟩
          rcases List.mem_cons.mp h1 with h3 | h3
          · exact absurd h3 hxa
          · refine List.mem_cons.mpr (Or.inr ((mem_uniqueGo x l (a :: seen)).mpr ⟨h3, ?_⟩))
            intro hc
            rcases List.mem_cons.mp hc with h4 | h4
            · exact hxa h4
            · exact h2 h4

theorem nodup_uniqueGo {α : Type} [DecidableEq α] :
    ∀ (l seen : List α), (uniqueGo seen l).Nodup
  | [], _ => by simp [uniqueGo]
  | a :: l, seen => by
    rw [uniqueGo]
    by_cases ha : a ∈ seen
    · rw [if_pos ha]
      exact nodup_uniqueGo l seen
    · rw [if_neg ha]
      refine List.nodup_cons.mpr ⟨fun hc => ?_, nodup_uniqueGo l (a :: seen)⟩
      exact ((mem_uniqueGo a l (a :: seen)).mp hc).2 (List.mem_cons_self a seen)

theorem mem_uniqueList {α : Type} [DecidableEq α] (a : α) (l : List α) :
    a ∈ uniqueList l ↔ a ∈ l := by
  rw [uniqueList, mem_uniqueGo]
  simp

theorem nodup_uniqueList {α : Type} [DecidableEq α] (l : List α) : (uniqueList l).Nodup :=
  nodup_uniqueGo l []

theorem nodup_filter_eq {α : Type} [DecidableEq α] {l : List α} (h : l.Nodup) (a : α) :
    l.filter (fun x => x = a) = if a ∈ l then [a] else [] := by
  induction l with
  | nil => simp
  | cons b l ih =>
    rcases List.nodup_cons.mp h with ⟨hb, hl⟩
    by_cases hba : b = a
    · subst hba
      have hfl : l.filter (fun x => x = b) = [] := by
        rw [ih hl, if_neg hb]
      simp [List.filter_cons, hfl]
    · have hmem : (a ∈ b :: l) ↔ (a ∈ l) := by
        constructor
        · intro hc
          rcases List.mem_cons.mp hc with h1 | h1
          · exact absurd h1.symm hba
          · exact h1
        · exact fun h1 => List.mem_cons.mpr (Or.inr h1)
      rw [List.filter_cons, if_neg (by simpa using hba), ih hl]
      by_cases hal : a ∈ l
      · rw [if_pos hal, if_pos (hmem.mpr hal)]
      · rw [if_neg hal, if_neg (fun hc => hal (hmem.mp hc))]

theorem uniqueList_filter_eq {α : Type} [DecidableEq α] (l : List α) (a : α) :
    (uniqueList l).filter (fun x => x = a) = if a ∈ l then [a] else [] := by
  rw [nodup_filter_eq (nodup_uniqueList l) a]
  by_cases h : a ∈ l
  · rw [if_pos ((mem_uniqueList a l).mpr h), if_pos h]
  · rw [if_neg (fun hc => h ((mem_uniqueList a l).mp hc)), if_neg h]

theorem flatMap_if_singleton {α β : Type} (l : List α) (p : α → Bool) (f : α → β) :
    (l.flatMap (fun x => if p x then [f x] else [])) = (l.filter p).map f := by
  induction l with
  | nil => rfl
  | cons a l ih =>
    by_cases hp : p a <;> simp [List.flatMap_cons, List.filter_cons, hp, ih]

theorem filter_flatMap_inner {α β : Type} (l : List α) (f : α → List β) (p : β → Bool) :
    (l.flatMap f).filter p = l.flatMap (fun a => (f a).filter p) := by
  induction l with
  | nil => rfl
  | cons a l ih => simp [List.flatMap_cons, List.filter_append, ih]

theorem flatMap_eq_single {α β : Type} [DecidableEq α] {l : List α} (hnd : l.Nodup)
    (a : α) (X : List β) :
    l.flatMap (fun v => if v = a then X else []) = if a ∈ l then X else [] := by
  induction l with
  | nil => simp
  | cons b l ih =>
    rcases List.nodup_cons.mp hnd with ⟨hb, hl⟩
    by_cases hba : b = a
    · subst hba
      simp only [List.flatMap_cons, if_pos rfl, List.mem_cons, true_or, if_true]
      rw [ih hl, if_neg hb, List.append_nil]
    · have hmem : (a ∈ b :: l) ↔ (a ∈ l) := by
        constructor
        · intro hc
          rcases List.mem_cons.mp hc with h1 | h1
          · exact absurd h1.symm hba
          · exact h1
        · exact fun h1 => List.mem_cons.mpr (Or.inr h1)
      simp only [List.flatMap_cons, if_neg hba, List.nil_append]
      rw [ih hl]
      by_cases hal : a ∈ l
      · rw [if_pos hal, if_pos (hmem.mpr hal)]
      · rw [if_neg hal, if_neg (fun hc => hal (hmem.mp hc))]

/-! Arithmetic of the per-value-column sums. -/

theorem addVals_left_comm (a b c : List Int) :
    addVals a (addVals b c) = addVals b (addVals a c) := by
  induction a generalizing b c with
  | nil => simp [addVals]
  | cons x a ih =>
    cases b with
    | nil => simp [addVals]
    | cons y b =>
      cases c with
      | nil => simp [addVals]
      | cons z c =>
        simp only [addVals, List.zipWith_cons_cons] at *
        rw [ih, Int.add_left_comm]

theorem sumVals_perm (n : Nat) {l₁ l₂ : List (List Int)} (h : List.Perm l₁ l₂) :
    sumVals n l₁ = sumVals n l₂ :=
  h.foldr_eq' (fun x _ y _ z => addVals_left_comm y x z) _

theorem aggRows_nil (vcs : List String) : aggRows vcs [] = List.replicate vcs.length 0 := by
  simp [aggRows, List.map_const']

theorem aggRows_append (vcs : List String) (xs ys : List Row) :
    aggRows vcs (xs ++ ys) = addVals (aggRows vcs xs) (aggRows vcs ys) := by
  induction vcs with
  | nil => rfl
  | cons c vcs ih =>
    simp only [aggRows, List.map_cons, addVals, List.zipWith_cons_cons, List.map_append,
      List.sum_append] at *
    exact congrArg _ ih

theorem sumVals_map_aggRows {α : Type} (vcs : List String) (l : List α) (g : α → List Row) :
    sumVals vcs.length (l.map (fun x => aggRows vcs (g x))) = aggRows vcs (l.flatMap g) := by
  induction l with
  | nil => simp [sumVals, aggRows_nil]
  | cons a l ih =>
    simp only [List.map_cons, sumVals, List.foldr_cons, List.flatMap_cons, aggRows_append]
    exact congrArg _ ih

theorem aggRows_perm (vcs : List String) {r₁ r₂ : List Row} (h : List.Perm r₁ r₂) :
    aggRows vcs r₁ = aggRows vcs r₂ := by
  simp only [aggRows]
  congr 1
  funext c
  exact (h.map _).sum_eq

/-! Characterization of the melt loop up to row order. -/

theorem filterMap_eq_flatMap_toList {α β : Type} (l : List α) (f : α → Option β) :
    l.filterMap f = l.flatMap (fun a => (f a).toList) := by
  induction l with
  | nil => rfl
  | cons a l ih => cases h : f a <;> simp [List.filterMap_cons, h, ih]

theorem flatMap_pure_map {α β : Type} (l : List α) (f : α → β) :
    l.flatMap (fun x => [f x]) = l.map f := by
  induction l with
  | nil => rfl
  | cons a l ih => simp [List.flatMap_cons, ih]

theorem flatMap_swap {α β γ : Type} (as : List α) (bs : List β) (f : α → β → List γ) :
    List.Perm (as.flatMap (fun a => bs.flatMap (f a)))
      (bs.flatMap (fun b => as.flatMap (fun a => f a b))) := by
  rw [← Multiset.coe_eq_coe, ← Multiset.coe_bind, ← Multiset.coe_bind]
  have h1 : ∀ a, ((bs.flatMap (f a) : List γ) : Multiset γ) =
      (bs : Multiset β).bind (fun b => (f a b : Multiset γ)) := by
    intro a; rw [Multiset.coe_bind]
  have h2 : ∀ b, ((as.flatMap (fun a => f a b) : List γ) : Multiset γ) =
      (as : Multiset α).bind (fun a => (f a b : Multiset γ)) := by
    intro b; rw [Multiset.coe_bind]
  simp only [h1, h2]
  exact Multiset.bind_bind (as : Multiset α) (bs : Multiset β)

theorem range_filterMap_getD {β : Type} (f : String → β) :
    ∀ (n : Nat) (rest : List String),
    (List.range n).filterMap (fun i =>
        if rest.getD i "__NA__" = "__NA__" then none else some (f (rest.getD i "__NA__"))) =
      ((rest.take n).filter (fun v => v ≠ "__NA__")).map f := by
  intro n
  induction n with
  | zero => intro rest; simp
  | succ n ih =>
    intro rest
    rw [List.range_succ, List.filterMap_append, ih, List.take_succ]
    rw [List.filter_append, List.map_append]
    congr 1
    simp only [List.filterMap_cons, List.filterMap_nil]
    cases hn : rest[n]? with
    | none =>
      have hg : rest.getD n "__NA__" = "__NA__" := by
        simp [List.getD_eq_getElem?_getD, hn]
      simp [hg, hn]
    | some v =>
      have hg : rest.getD n "__NA__" = v := by
        simp [List.getD_eq_getElem?_getD, hn]
      by_cases hv : v = "__NA__"
      · simp [hg, hv, hn]
      · simp [hg, hv, hn, Option.toList]

theorem expandOne_eq (n : Nat) (m : MRow) :
    expandOne n m = ((m.rest.take n).filter (fun v => v ≠ "__NA__")).map
      (fun v => MRow.mk (m.done ++ [v]) (m.rest.drop n) m.vals) := by
  simp only [expandOne]
  exact range_filterMap_getD (fun v => MRow.mk (m.done ++ [v]) (m.rest.drop n) m.vals) n m.rest

theorem meltDim_perm_expand (n : Nat) (rows : List MRow) :
    List.Perm (meltDim n rows) (rows.flatMap (expandOne n)) := by
  have h1 : meltDim n rows = (List.range n).flatMap (fun i =>
      rows.flatMap (fun m =>
        (if m.rest.getD i "__NA__" = "__NA__" then none
         else some (MRow.mk (m.done ++ [m.rest.getD i "__NA__"]) (m.rest.drop n) m.vals)).toList)) := by
    simp only [meltDim, filterMap_eq_flatMap_toList]
  have h2 : rows.flatMap (expandOne n) = rows.flatMap (fun m =>
      (List.range n).flatMap (fun i =>
        (if m.rest.getD i "__NA__" = "__NA__" then none
         else some (MRow.mk (m.done ++ [m.rest.getD i "__NA__"]) (m.rest.drop n) m.vals)).toList)) := by
    congr 1
    funext m
    simp only [expandOne, filterMap_eq_flatMap_toList]
  rw [h1, h2]
  exact flatMap_swap _ _ _

theorem meltDim_perm_congr (n : Nat) {r₁ r₂ : List MRow} (h : List.Perm r₁ r₂) :
    List.Perm (meltDim n r₁) (meltDim n r₂) := by
  simp only [meltDim]
  induction (List.range n) with
  | nil => simp
  | cons i is ih => simp only [List.flatMap_cons]; exact (h.filterMap _).append ih

theorem meltAll_perm_congr : ∀ (ncats : List Nat) {r₁ r₂ : List MRow},
    List.Perm r₁ r₂ → List.Perm (meltAll ncats r₁) (meltAll ncats r₂)
  | [], _, _, h => h
  | n :: ns, _, _, h => meltAll_perm_congr ns (meltDim_perm_congr n h)

theorem flatMap_id_singleton {α : Type} (l : List α) : l.flatMap (fun x => [x]) = l := by
  induction l with
  | nil => rfl
  | cons a l ih => simp [List.flatMap_cons, ih]

theorem meltAll_perm_sels : ∀ (ncats : List Nat) (rows : List MRow),
    List.Perm (meltAll ncats rows)
      (rows.flatMap (fun m => (sels ncats m.rest).map
        (fun c => MRow.mk (m.done ++ c) (m.rest.drop ncats.sum) m.vals)))
  | [], rows => by
    have h : (fun m : MRow => (sels [] m.rest).map
        (fun c => MRow.mk (m.done ++ c) (m.rest.drop (List.sum [])) m.vals)) =
        (fun m : MRow => [m]) := by
      funext m
      show [MRow.mk (m.done ++ []) (m.rest.drop (List.sum [])) m.vals] = [m]
      rw [List.append_nil]
      rfl
    show List.Perm (meltAll [] rows) _
    rw [show meltAll [] rows = rows from rfl, h, flatMap_id_singleton]
  | n :: ns, rows => by
    have step1 := meltAll_perm_sels ns (meltDim n rows)
    have step2 : List.Perm
        ((meltDim n rows).flatMap (fun m => (sels ns m.rest).map
          (fun c => MRow.mk (m.done ++ c) (m.rest.drop ns.sum) m.vals)))
        ((rows.flatMap (expandOne n)).flatMap (fun m => (sels ns m.rest).map
          (fun c => MRow.mk (m.done ++ c) (m.rest.drop ns.sum) m.vals))) :=
      (meltDim_perm_expand n rows).flatMap_right _
    have step3 : (rows.flatMap (expandOne n)).flatMap (fun m => (sels ns m.rest).map
          (fun c => MRow.mk (m.done ++ c) (m.rest.drop ns.sum) m.vals)) =
        rows.flatMap (fun m => (sels (n :: ns) m.rest).map
          (fun c => MRow.mk (m.done ++ c) (m.rest.drop ((n :: ns).sum)) m.vals)) := by
      rw [List.flatMap_assoc]
      congr 1
      funext m
      rw [expandOne_eq, List.flatMap_map, sels, List.map_flatMap]
      congr 1
      funext v
      rw [List.map_map]
      show List.map
          (fun c => MRow.mk ((m.done ++ [v]) ++ c) ((m.rest.drop n).drop ns.sum) m.vals)
          (sels ns (m.rest.drop n)) = _
      congr 1
      funext c
      show MRow.mk ((m.done ++ [v]) ++ c) ((m.rest.drop n).drop ns.sum) m.vals =
        MRow.mk (m.done ++ (v :: c)) (m.rest.drop ((n :: ns).sum)) m.vals
      rw [List.append_assoc, List.singleton_append, List.drop_drop, List.sum_cons]
    exact step1.trans (step2.trans (List.Perm.of_eq step3))

theorem sels_mem : ∀ (ncats : List Nat) (rest : List String) (combo : List String),
    combo ∈ sels ncats rest ↔ selectable ncats rest combo = true
  | [], rest, combo => by
    cases combo <;> simp [sels, selectable]
  | n :: ns, rest, combo => by
    cases combo with
    | nil =>
      simp only [sels, selectable, List.mem_flatMap, List.mem_map]
      constructor
      · rintro ⟨v, _, c, _, hc⟩
        exact absurd hc (by simp)
      · intro h
        exact absurd h (by simp)
    | cons l cs =>
      simp only [sels, selectable, List.mem_flatMap, List.mem_map, Bool.and_eq_true,
        decide_eq_true_eq]
      constructor
      · rintro ⟨v, hv, c, hc, hvc⟩
        injection hvc with hv1 hv2
        subst hv1
        subst hv2
        exact ⟨hv, (sels_mem ns (rest.drop n) c).mp hc⟩
      · rintro ⟨hv, hsel⟩
        exact ⟨l, hv, cs, (sels_mem ns (rest.drop n) cs).mpr hsel, rfl⟩

theorem flatMap_congr_fun {α β : Type} {l : List α} {f g : α → List β}
    (h : ∀ a ∈ l, f a = g a) : l.flatMap f = l.flatMap g := by
  induction l with
  | nil => rfl
  | cons a l ih =>
    rw [List.flatMap_cons, List.flatMap_cons, h a (List.mem_cons_self a l),
      ih (fun x hx => h x (List.mem_cons.mpr (Or.inr hx)))]

theorem sels_filter_eq : ∀ (ncats : List Nat) (rest : List String) (combo : List String),
    chunksNodup ncats rest →
    (sels ncats rest).filter (fun c => c = combo) =
      (if selectable ncats rest combo then [combo] else [])
  | [], rest, combo, _ => by
    cases combo with
    | nil => rfl
    | cons l cs => rfl
  | n :: ns, rest, combo, hnd => by
    rcases hnd with ⟨h1, h2⟩
    cases combo with
    | nil =>
      have h0 : (sels (n :: ns) rest).filter (fun c => c = ([] : List String)) = [] := by
        apply List.filter_eq_nil_iff.mpr
        intro c hc
        rw [sels] at hc
        rcases List.mem_flatMap.mp hc with ⟨v, _, hv⟩
        rcases List.mem_map.mp hv with ⟨c2, _, hc2⟩
        simp [← hc2]
      rw [h0]
      rfl
    | cons l cs =>
      rw [sels, filter_flatMap_inner]
      have hblock : ∀ v ∈ (rest.take n).filter (fun v => v ≠ "__NA__"),
          ((sels ns (rest.drop n)).map (fun c => v :: c)).filter
            (fun c => c = l :: cs) =
          (if v = l then (if selectable ns (rest.drop n) cs then [l :: cs] else []) else []) := by
        intro v _
        rw [List.filter_map]
        by_cases hvl : v = l
        · have hpred : (sels ns (rest.drop n)).filter
              ((fun c => decide (c = l :: cs)) ∘ (fun c => v :: c)) =
              (sels ns (rest.drop n)).filter (fun c => c = cs) := by
            apply List.filter_congr
            intro c _
            subst hvl
            show decide (v :: c = v :: cs) = decide (c = cs)
            by_cases hcc : c = cs
            · subst hcc
              simp
            · simp [hcc]
          rw [if_pos hvl, hpred, sels_filter_eq ns (rest.drop n) cs h2]
          subst hvl
          by_cases hsel : selectable ns (rest.drop n) cs
          · rw [if_pos hsel, if_pos hsel, List.map_cons, List.map_nil]
          · rw [if_neg hsel, if_neg hsel, List.map_nil]
        · have hpred : (sels ns (rest.drop n)).filter
              ((fun c => decide (c = l :: cs)) ∘ (fun c => v :: c)) = [] := by
            apply List.filter_eq_nil_iff.mpr
            intro c _
            simp [Function.comp, hvl]
          rw [if_neg hvl, hpred, List.map_nil]
      rw [flatMap_congr_fun hblock]
      rw [flatMap_eq_single h1 l _]
      rw [show selectable (n :: ns) rest (l :: cs) =
        (decide (l ∈ (rest.take n).filter (fun v => v ≠ "__NA__")) &&
          selectable ns (rest.drop n) cs) from rfl]
      by_cases hmem : l ∈ (rest.take n).filter (fun v => v ≠ "__NA__")
      · rw [if_pos hmem, decide_eq_true hmem, Bool.true_and]
      · rw [if_neg hmem, decide_eq_false hmem, Bool.false_and]
        rw [if_neg (by simp)]

theorem dlookup_eq_some_mem {α : Type} {k : String} {v : α} :
    ∀ {d : List (String × α)}, dlookup k d = some v → (k, v) ∈ d
  | [], h => by simp [dlookup] at h
  | p :: d, h => by
    rw [dlookup] at h
    by_cases hp : p.1 = k
    · rw [if_pos hp] at h
      injection h with hv
      subst hv
      subst hp
      exact List.mem_cons_self p d
    · rw [if_neg hp] at h
      exact List.mem_cons.mpr (Or.inr (dlookup_eq_some_mem h))

theorem dlookup_of_mem_nodup {α : Type} :
    ∀ {d : List (String × α)}, (d.map Prod.fst).Nodup →
      ∀ {ls : String × α}, ls ∈ d → dlookup ls.1 d = some ls.2
  | [], _, _, h => absurd h (List.not_mem_nil _)
  | p :: d, hnd, ls, h => by
    rcases List.nodup_cons.mp (List.map_cons Prod.fst p d ▸ hnd) with ⟨hp, hd⟩
    rcases List.mem_cons.mp h with h1 | h1
    · subst h1
      rw [dlookup, if_pos rfl]
    · rw [dlookup]
      have hne : p.1 ≠ ls.1 := by
        intro he
        exact hp (he ▸ List.mem_map_of_mem Prod.fst h1)
      rw [if_neg hne]
      exact dlookup_of_mem_nodup hd h1

/-! Bridge between indicator keys and the direct conjunctive filter. -/

theorem isResolved_exists {sp : Spec} (h : sp.isResolved = true) :
    ∃ vs, sp = Spec.vals vs := by
  cases sp with
  | all => simp [Spec.isResolved] at h
  | vals vs => exact ⟨vs, rfl⟩

theorem mem_indic_filter_iff (df : DF) (var : String) (dim : Dim) (r : Row) (l : String)
    (hnd : (dim.map Prod.fst).Nodup) (hna : ∀ ls ∈ dim, ls.1 ≠ "__NA__")
    (hres : ∀ ls ∈ dim, ls.2.isResolved = true) :
    (l ∈ (dim.map (fun ls => indic df var ls r)).filter (fun v => v ≠ "__NA__")) ↔
      (∃ vs, dlookup l dim = some (Spec.vals vs) ∧ r var ∈ vs) := by
  constructor
  · intro hmem
    rcases List.mem_filter.mp hmem with ⟨hmap, hne⟩
    rcases List.mem_map.mp hmap with ⟨ls, hls, hind⟩
    have hne2 : l ≠ "__NA__" := by simpa using hne
    rw [indic] at hind
    by_cases hc : r var ∈ parse_mapping ls.2 (colOf df var)
    · rw [if_pos hc] at hind
      rcases isResolved_exists (hres ls hls) with ⟨vs, hvs⟩
      refine ⟨vs, ?_, ?_⟩
      · rw [← hind, dlookup_of_mem_nodup hnd hls, hvs]
      · rw [hvs] at hc
        exact hc
    · rw [if_neg hc] at hind
      exact absurd hind.symm hne2
  · rintro ⟨vs, hdl, hmem⟩
    rcases dlookup_eq_some_mem hdl with hls
    apply List.mem_filter.mpr
    constructor
    · apply List.mem_map.mpr
      refine ⟨(l, Spec.vals vs), hls, ?_⟩
      rw [indic]
      rw [if_pos (by simpa [parse_mapping] using hmem)]
    · simpa using hna (l, Spec.vals vs) hls

theorem decide_mem_indic_eq (df : DF) (var : String) (dim : Dim) (r : Row) (l : String)
    (hnd : (dim.map Prod.fst).Nodup) (hna : ∀ ls ∈ dim, ls.1 ≠ "__NA__")
    (hres : ∀ ls ∈ dim, ls.2.isResolved = true) :
    decide (l ∈ (dim.map (fun ls => indic df var ls r)).filter (fun v => v ≠ "__NA__")) =
      (match dlookup l dim with
       | some (Spec.vals vs) => decide (r var ∈ vs)
       | _ => false) := by
  cases hdl : dlookup l dim with
  | none =>
    apply decide_eq_false
    intro hc
    rcases (mem_indic_filter_iff df var dim r l hnd hna hres).mp hc with ⟨vs, hvs, _⟩
    rw [hdl] at hvs
    cases hvs
  | some sp =>
    cases sp with
    | all =>
      apply decide_eq_false
      intro hc
      rcases (mem_indic_filter_iff df var dim r l hnd hna hres).mp hc with ⟨vs, hvs, _⟩
      rw [hdl] at hvs
      cases hvs
    | vals vs =>
      show _ = decide (r var ∈ vs)
      by_cases hm : r var ∈ vs
      · rw [decide_eq_true hm]
        apply decide_eq_true
        exact (mem_indic_filter_iff df var dim r l hnd hna hres).mpr ⟨vs, hdl, hm⟩
      · rw [decide_eq_false hm]
        apply decide_eq_false
        intro hc
        rcases (mem_indic_filter_iff df var dim r l hnd hna hres).mp hc with ⟨vs2, hvs2, hm2⟩
        rw [hdl] at hvs2
        injection hvs2 with he
        injection he with he2
        exact hm (he2 ▸ hm2)

theorem mem_indic_filter_label (df : DF) (var : String) (dim : Dim) (r : Row) (x : String)
    (hx : x ∈ (dim.map (fun ls => indic df var ls r)).filter (fun v => v ≠ "__NA__")) :
    x ∈ dim.map Prod.fst := by
  rcases List.mem_filter.mp hx with ⟨hmap, hne⟩
  rcases List.mem_map.mp hmap with ⟨ls, hls, hind⟩
  rw [indic] at hind
  by_cases hc : r var ∈ parse_mapping ls.2 (colOf df var)
  · rw [if_pos hc] at hind
    exact hind ▸ List.mem_map_of_mem Prod.fst hls
  · rw [if_neg hc] at hind
    exact absurd hind.symm (by simpa using hne)

theorem nodup_indic_filter (df : DF) (var : String) (r : Row) :
    ∀ (dim : Dim), (dim.map Prod.fst).Nodup →
    ((dim.map (fun ls => indic df var ls r)).filter (fun v => v ≠ "__NA__")).Nodup
  | [], _ => by simp
  | ls :: dim, hnd => by
    rcases List.nodup_cons.mp (List.map_cons Prod.fst ls dim ▸ hnd) with ⟨hp, hd⟩
    rw [List.map_cons, List.filter_cons]
    by_cases hv : (indic df var ls r) ≠ "__NA__"
    · rw [if_pos (by simpa using hv)]
      apply List.nodup_cons.mpr
      refine ⟨fun hc => ?_, nodup_indic_filter df var r dim hd⟩
      have hlbl : indic df var ls r = ls.1 := by
        by_cases hc2 : r var ∈ parse_mapping ls.2 (colOf df var)
        · rw [indic, if_pos hc2]
        · exact absurd (by rw [indic, if_neg hc2]) hv
      exact hp (hlbl ▸ mem_indic_filter_label df var dim r _ hc)
    · rw [if_neg (by simpa using hv)]
      exact nodup_indic_filter df var r dim hd

theorem chunksNodup_rowKey (df : DF) : ∀ (cm : CatMap) (r : Row),
    (∀ vd ∈ cm, (vd.2.map Prod.fst).Nodup) →
    chunksNodup (cm.map (fun vd => vd.2.length)) (rowKey df cm r)
  | [], r, _ => by simp [chunksNodup]
  | vd :: cm, r, hnd => by
    rw [List.map_cons, rowKey, List.flatMap_cons]
    have hlen : (vd.2.map (fun ls => indic df vd.1 ls r)).length = vd.2.length :=
      List.length_map _ _
    refine ⟨?_, ?_⟩
    · rw [← hlen, List.take_left]
      exact nodup_indic_filter df vd.1 r vd.2 (hnd vd (List.mem_cons_self vd cm))
    · rw [← hlen, List.drop_left]
      exact chunksNodup_rowKey df cm r (fun x hx => hnd x (List.mem_cons.mpr (Or.inr hx)))

theorem selectable_rowKey_eq_conjMatch (df : DF) : ∀ (cm : CatMap) (combo : List String) (r : Row),
    (∀ vd ∈ cm, (vd.2.map Prod.fst).Nodup) →
    (∀ vd ∈ cm, ∀ ls ∈ vd.2, ls.1 ≠ "__NA__") →
    (∀ vd ∈ cm, ∀ ls ∈ vd.2, ls.2.isResolved = true) →
    selectable (cm.map (fun vd => vd.2.length)) (rowKey df cm r) combo = conjMatch cm combo r
  | [], combo, r, _, _, _ => by
    cases combo with
    | nil => rfl
    | cons l cs => rfl
  | vd :: cm, combo, r, hnd, hna, hres => by
    cases combo with
    | nil => rfl
    | cons l cs =>
      rw [show rowKey df (vd :: cm) r =
        (vd.2.map (fun ls => indic df vd.1 ls r)) ++ rowKey df cm r from
        List.flatMap_cons _ _ _]
      have hlen : (vd.2.map (fun ls => indic df vd.1 ls r)).length = vd.2.length :=
        List.length_map _ _
      rw [List.map_cons]
      show (decide (l ∈ List.filter (fun v => v ≠ "__NA__")
            (List.take vd.2.length ((vd.2.map (fun ls => indic df vd.1 ls r)) ++ rowKey df cm r))) &&
          selectable (cm.map (fun vd => vd.2.length))
            (List.drop vd.2.length ((vd.2.map (fun ls => indic df vd.1 ls r)) ++ rowKey df cm r)) cs) = _
      rw [← hlen, List.take_left, List.drop_left]
      rw [decide_mem_indic_eq df vd.1 vd.2 r l (hnd vd (List.mem_cons_self vd cm))
        (hna vd (List.mem_cons_self vd cm)) (hres vd (List.mem_cons_self vd cm))]
      rw [selectable_rowKey_eq_conjMatch df cm cs r
        (fun x hx => hnd x (List.mem_cons.mpr (Or.inr hx)))
        (fun x hx => hna x (List.mem_cons.mpr (Or.inr hx)))
        (fun x hx => hres x (List.mem_cons.mpr (Or.inr hx)))]
      rfl

/-! Partition of the raw rows by grouping key. -/

theorem flatMap_const_nil {α β : Type} (l : List α) :
    l.flatMap (fun _ => ([] : List β)) = [] := by
  induction l with
  | nil => rfl
  | cons a l ih => simp [List.flatMap_cons, ih]

theorem flatMap_block_cons {α K : Type} [DecidableEq K] (keyOf : α → K) (r : α) (rs : List α) :
    ∀ (ks : List K), ks.Nodup →
    List.Perm (ks.flatMap (fun k => (r :: rs).filter (fun x => keyOf x = k)))
      (if keyOf r ∈ ks then r :: ks.flatMap (fun k => rs.filter (fun x => keyOf x = k))
       else ks.flatMap (fun k => rs.filter (fun x => keyOf x = k)))
  | [], _ => by
    rw [if_neg (List.not_mem_nil _)]
    exact List.Perm.refl _
  | k :: ks, hnd => by
    rcases List.nodup_cons.mp hnd with ⟨hk, hks⟩
    by_cases hrk : keyOf r = k
    · have htail : ks.flatMap (fun k2 => (r :: rs).filter (fun x => keyOf x = k2)) =
          ks.flatMap (fun k2 => rs.filter (fun x => keyOf x = k2)) := by
        apply flatMap_congr_fun
        intro k2 hk2
        rw [List.filter_cons]
        rw [if_neg (by
          simp only [decide_eq_true_eq]
          intro he
          exact hk (by rw [hrk.symm.trans he]; exact hk2))]
      apply List.Perm.of_eq
      rw [List.flatMap_cons, htail, List.filter_cons,
        if_pos (by simpa using hrk), if_pos (List.mem_cons.mpr (Or.inl hrk))]
      rfl
    · rw [List.flatMap_cons, List.filter_cons, if_neg (by simpa using hrk)]
      have ih := flatMap_block_cons keyOf r rs ks hks
      by_cases hmem : keyOf r ∈ ks
      · rw [if_pos hmem] at ih
        rw [if_pos (List.mem_cons.mpr (Or.inr hmem))]
        refine ((ih.append_left _).trans ?_)
        refine (List.perm_middle.trans ?_)
        rw [List.flatMap_cons]
      · rw [if_neg hmem] at ih
        rw [if_neg (by
          intro hc
          rcases List.mem_cons.mp hc with h1 | h1
          · exact hrk h1
          · exact hmem h1)]
        rw [List.flatMap_cons]
        exact ih.append_left _

theorem flatMap_filter_key_perm {α K : Type} [DecidableEq K] (keyOf : α → K) :
    ∀ (rows : List α) (ks : List K), ks.Nodup → (∀ x ∈ rows, keyOf x ∈ ks) →
    List.Perm (ks.flatMap (fun k => rows.filter (fun x => keyOf x = k))) rows
  | [], ks, _, _ => by
    have h : ks.flatMap (fun k => ([] : List α).filter (fun x => keyOf x = k)) =
        ks.flatMap (fun _ => ([] : List α)) := by
      apply flatMap_congr_fun
      intro k _
      rfl
    rw [h, flatMap_const_nil]
  | r :: rs, ks, hnd, hcov => by
    refine (flatMap_block_cons keyOf r rs ks hnd).trans ?_
    rw [if_pos (hcov r (List.mem_cons_self r rs))]
    exact (flatMap_filter_key_perm keyOf rs ks hnd
      (fun x hx => hcov x (List.mem_cons.mpr (Or.inr hx)))).cons r

theorem filter_key_restrict {α K : Type} [DecidableEq K] (keyOf : α → K) (P : K → Bool)
    (rows : List α) (k : K) (hPk : P k = true) :
    (rows.filter (fun x => P (keyOf x))).filter (fun x => keyOf x = k) =
      rows.filter (fun x => keyOf x = k) := by
  induction rows with
  | nil => rfl
  | cons x rs ih =>
    by_cases hxk : keyOf x = k
    · rw [List.filter_cons, if_pos (by rw [hxk]; exact hPk), List.filter_cons,
        if_pos (by simpa using hxk), List.filter_cons, if_pos (by simpa using hxk), ih]
    · rw [List.filter_cons]
      by_cases hPx : P (keyOf x)
      · rw [if_pos (by simpa using hPx), List.filter_cons, if_neg (by simpa using hxk), ih,
          List.filter_cons, if_neg (by simpa using hxk)]
      · rw [if_neg (by simpa using hPx), ih, List.filter_cons, if_neg (by simpa using hxk)]

theorem grouped_filter_perm {α K : Type} [DecidableEq K] (keyOf : α → K) (P : K → Bool)
    (rows : List α) (ks : List K) (hnd : ks.Nodup) (hcov : ∀ x ∈ rows, keyOf x ∈ ks) :
    List.Perm ((ks.filter P).flatMap (fun k => rows.filter (fun x => keyOf x = k)))
      (rows.filter (fun x => P (keyOf x))) := by
  have h1 : (ks.filter P).flatMap (fun k => rows.filter (fun x => keyOf x = k)) =
      (ks.filter P).flatMap
        (fun k => (rows.filter (fun x => P (keyOf x))).filter (fun x => keyOf x = k)) := by
    apply flatMap_congr_fun
    intro k hk
    exact (filter_key_restrict keyOf P rows k (by simpa using (List.mem_filter.mp hk).2)).symm
  rw [h1]
  exact flatMap_filter_key_perm keyOf (rows.filter (fun x => P (keyOf x))) (ks.filter P)
    (hnd.filter P)
    (fun x hx => List.mem_filter.mpr
      ⟨hcov x (List.mem_filter.mp hx).1, (List.mem_filter.mp hx).2⟩)

/-! The master characterization: the core table at a fixed label combination. -/

theorem regroup_filter_eq (n : Nat) (melted : List MRow) (combo : List String) :
    (regroup n melted).filter (fun p => p.1 = combo) =
      (if combo ∈ melted.map MRow.done then
        [(combo, sumVals n ((melted.filter (fun m => m.done = combo)).map MRow.vals))]
       else []) := by
  rw [regroup, List.filter_map]
  have h1 : ((uniqueList (melted.map MRow.done)).filter
      ((fun p : List String × List Int => decide (p.1 = combo)) ∘
        (fun k => (k, sumVals n ((melted.filter (fun m => m.done = k)).map MRow.vals))))) =
      (uniqueList (melted.map MRow.done)).filter (fun k => k = combo) := by
    apply List.filter_congr
    intro k _
    rfl
  rw [h1, uniqueList_filter_eq]
  by_cases hc : combo ∈ melted.map MRow.done
  · rw [if_pos hc, if_pos hc, List.map_cons, List.map_nil]
  · rw [if_neg hc, if_neg hc, List.map_nil]

theorem bucket_fst_chunksNodup (df2 : DF) (cm : CatMap) (vcs : List String)
    (hnodup : ∀ vd ∈ cm, (vd.2.map Prod.fst).Nodup)
    {b : List String × List Int} (hb : b ∈ groupby1 df2 cm vcs) :
    chunksNodup (cm.map (fun vd => vd.2.length)) b.1 := by
  rcases List.mem_map.mp hb with ⟨k, hk, hbk⟩
  rcases List.mem_map.mp ((mem_uniqueList k _).mp hk) with ⟨r, _, hkr⟩
  have hb1 : b.1 = k := by rw [← hbk]
  rw [hb1, ← hkr]
  exact chunksNodup_rowKey df2 cm r hnodup

theorem meltAll_perm_canonical (df2 : DF) (cm : CatMap) (vcs : List String) :
    List.Perm
      (meltAll (cm.map (fun vd => vd.2.length))
        ((groupby1 df2 cm vcs).map (fun b => MRow.mk [] b.1 b.2)))
      ((groupby1 df2 cm vcs).flatMap (fun b =>
        (sels (cm.map (fun vd => vd.2.length)) b.1).map
          (fun c => MRow.mk c (b.1.drop (cm.map (fun vd => vd.2.length)).sum) b.2))) := by
  refine (meltAll_perm_sels _ _).trans (List.Perm.of_eq ?_)
  rw [List.flatMap_map]
  apply flatMap_congr_fun
  intro b _
  rfl

theorem melted_done_mem_iff (df2 : DF) (cm : CatMap) (vcs : List String) (combo : List String)
    (hnodup : ∀ vd ∈ cm, (vd.2.map Prod.fst).Nodup)
    (hna : ∀ vd ∈ cm, ∀ ls ∈ vd.2, ls.1 ≠ "__NA__")
    (hres : ∀ vd ∈ cm, ∀ ls ∈ vd.2, ls.2.isResolved = true) :
    (combo ∈ (meltAll (cm.map (fun vd => vd.2.length))
        ((groupby1 df2 cm vcs).map (fun b => MRow.mk [] b.1 b.2))).map MRow.done) ↔
      ∃ r ∈ df2.rows, conjMatch cm combo r = true := by
  rw [((meltAll_perm_canonical df2 cm vcs).map MRow.done).mem_iff, List.map_flatMap]
  constructor
  · intro h
    rcases List.mem_flatMap.mp h with ⟨b, hb, hin⟩
    rw [List.map_map] at hin
    rcases List.mem_map.mp hin with ⟨c, hc, hcc⟩
    have hc2 : c = combo := hcc
    subst hc2
    rcases List.mem_map.mp hb with ⟨k, hk, hbk⟩
    rcases List.mem_map.mp ((mem_uniqueList k _).mp hk) with ⟨r, hr, hkr⟩
    refine ⟨r, hr, ?_⟩
    rw [← selectable_rowKey_eq_conjMatch df2 cm c r hnodup hna hres, hkr]
    have hb1 : b.1 = k := by rw [← hbk]
    rw [← hb1]
    exact (sels_mem _ b.1 c).mp hc
  · rintro ⟨r, hr, hcm⟩
    have hsel : selectable (cm.map (fun vd => vd.2.length)) (rowKey df2 cm r) combo = true := by
      rw [selectable_rowKey_eq_conjMatch df2 cm combo r hnodup hna hres]
      exact hcm
    have hkmem : rowKey df2 cm r ∈ uniqueList (df2.rows.map (rowKey df2 cm)) :=
      (mem_uniqueList _ _).mpr (List.mem_map_of_mem _ hr)
    apply List.mem_flatMap.mpr
    refine ⟨(rowKey df2 cm r,
      aggRows vcs (df2.rows.filter (fun r2 => rowKey df2 cm r2 = rowKey df2 cm r))), ?_, ?_⟩
    · exact List.mem_map_of_mem _ hkmem
    · rw [List.map_map]
      exact List.mem_map.mpr ⟨combo, (sels_mem _ _ combo).mpr hsel, rfl⟩

theorem melted_filter_vals_eq (df2 : DF) (cm : CatMap) (vcs : List String) (combo : List String)
    (hnodup : ∀ vd ∈ cm, (vd.2.map Prod.fst).Nodup)
    (hna : ∀ vd ∈ cm, ∀ ls ∈ vd.2, ls.1 ≠ "__NA__")
    (hres : ∀ vd ∈ cm, ∀ ls ∈ vd.2, ls.2.isResolved = true) :
    sumVals vcs.length
      (((meltAll (cm.map (fun vd => vd.2.length))
          ((groupby1 df2 cm vcs).map (fun b => MRow.mk [] b.1 b.2))).filter
        (fun m => m.done = combo)).map MRow.vals) =
      aggRows vcs (df2.rows.filter (fun r => conjMatch cm combo r)) := by
  rw [sumVals_perm vcs.length
    (((meltAll_perm_canonical df2 cm vcs).filter (fun m => decide (m.done = combo))).map MRow.vals)]
  rw [filter_flatMap_inner]
  have hblocks : ∀ b ∈ groupby1 df2 cm vcs,
      ((sels (cm.map (fun vd => vd.2.length)) b.1).map
        (fun c => MRow.mk c (b.1.drop (cm.map (fun vd => vd.2.length)).sum) b.2)).filter
          (fun m => decide (m.done = combo)) =
      (if selectable (cm.map (fun vd => vd.2.length)) b.1 combo then
        [MRow.mk combo (b.1.drop (cm.map (fun vd => vd.2.length)).sum) b.2] else []) := by
    intro b hb
    rw [List.filter_map]
    have hpred : ((sels (cm.map (fun vd => vd.2.length)) b.1).filter
        ((fun m : MRow => decide (m.done = combo)) ∘
          (fun c => MRow.mk c (b.1.drop (cm.map (fun vd => vd.2.length)).sum) b.2))) =
        (sels (cm.map (fun vd => vd.2.length)) b.1).filter (fun c => c = combo) := by
      apply List.filter_congr
      intro c _
      rfl
    rw [hpred, sels_filter_eq _ b.1 combo (bucket_fst_chunksNodup df2 cm vcs hnodup hb)]
    by_cases hs : selectable (cm.map (fun vd => vd.2.length)) b.1 combo
    · rw [if_pos hs, if_pos hs, List.map_cons, List.map_nil]
    · rw [if_neg hs, if_neg hs, List.map_nil]
  rw [flatMap_congr_fun hblocks]
  rw [flatMap_if_singleton (groupby1 df2 cm vcs)
    (fun b => selectable (cm.map (fun vd => vd.2.length)) b.1 combo)
    (fun b => MRow.mk combo (b.1.drop (cm.map (fun vd => vd.2.length)).sum) b.2)]
  rw [List.map_map]
  rw [groupby1, List.filter_map, List.map_map]
  have hfilt : ((uniqueList (df2.rows.map (rowKey df2 cm))).filter
      ((fun b : List String × List Int =>
          selectable (cm.map (fun vd => vd.2.length)) b.1 combo) ∘
        (fun k => (k, aggRows vcs (df2.rows.filter (fun r => rowKey df2 cm r = k)))))) =
      (uniqueList (df2.rows.map (rowKey df2 cm))).filter
        (fun k => selectable (cm.map (fun vd => vd.2.length)) k combo) := by
    apply List.filter_congr
    intro k _
    rfl
  rw [hfilt]
  have hmapeq : List.map
      ((MRow.vals ∘ fun b : List String × List Int =>
          MRow.mk combo (b.1.drop (cm.map (fun vd => vd.2.length)).sum) b.2) ∘
        (fun k => (k, aggRows vcs (df2.rows.filter (fun r => rowKey df2 cm r = k)))))
      ((uniqueList (df2.rows.map (rowKey df2 cm))).filter
        (fun k => selectable (cm.map (fun vd => vd.2.length)) k combo)) =
      List.map (fun k => aggRows vcs (df2.rows.filter (fun r => rowKey df2 cm r = k)))
      ((uniqueList (df2.rows.map (rowKey df2 cm))).filter
        (fun k => selectable (cm.map (fun vd => vd.2.length)) k combo)) := by
    apply List.map_congr_left
    intro k _
    rfl
  rw [hmapeq]
  rw [sumVals_map_aggRows vcs _ (fun k => df2.rows.filter (fun r => rowKey df2 cm r = k))]
  rw [aggRows_perm vcs (grouped_filter_perm (rowKey df2 cm)
    (fun k => selectable (cm.map (fun vd => vd.2.length)) k combo) df2.rows
    (uniqueList (df2.rows.map (rowKey df2 cm))) (nodup_uniqueList _)
    (fun r hr => (mem_uniqueList _ _).mpr (List.mem_map_of_mem _ hr)))]
  apply congrArg
  apply List.filter_congr
  intro r _
  exact selectable_rowKey_eq_conjMatch df2 cm combo r hnodup hna hres

theorem coreTable_filter_combo (df2 : DF) (cm : CatMap) (vcs : List String) (combo : List String)
    (hnodup : ∀ vd ∈ cm, (vd.2.map Prod.fst).Nodup)
    (hna : ∀ vd ∈ cm, ∀ ls ∈ vd.2, ls.1 ≠ "__NA__")
    (hres : ∀ vd ∈ cm, ∀ ls ∈ vd.2, ls.2.isResolved = true) :
    (coreTable df2 cm vcs).filter (fun p => p.1 = combo) =
      (if (df2.rows.filter (fun r => conjMatch cm combo r)).isEmpty then []
       else [(combo, aggRows vcs (df2.rows.filter (fun r => conjMatch cm combo r)))]) := by
  rw [coreTable, regroup_filter_eq]
  by_cases hfe : (df2.rows.filter (fun r => conjMatch cm combo r)).isEmpty = true
  · rw [if_pos hfe]
    rw [if_neg (by
      intro hc
      rcases (melted_done_mem_iff df2 cm vcs combo hnodup hna hres).mp hc with ⟨r, hr, hcm⟩
      have hmem : r ∈ df2.rows.filter (fun r => conjMatch cm combo r) :=
        List.mem_filter.mpr ⟨hr, by simpa using hcm⟩
      rw [List.isEmpty_iff.mp hfe] at hmem
      exact List.not_mem_nil r hmem)]
  · rw [if_neg hfe]
    have hne : df2.rows.filter (fun r => conjMatch cm combo r) ≠ [] := by
      intro hc
      exact hfe (List.isEmpty_iff.mpr hc)
    rcases List.exists_mem_of_ne_nil _ hne with ⟨x, hx⟩
    rcases List.mem_filter.mp hx with ⟨hxr, hxc⟩
    rw [if_pos ((melted_done_mem_iff df2 cm vcs combo hnodup hna hres).mpr
      ⟨x, hxr, by simpa using hxc⟩)]
    rw [melted_filter_vals_eq df2 cm vcs combo hnodup hna hres]

/-! Reduction of the full call on the success path. -/

theorem prepare_core_ok (df : DF) (cm : CatMap) (vcs : List String)
    (hcols : ∀ c ∈ vcs ++ cm.map Prod.fst, c ∈ df.cols) :
    prepare df [] cm vcs none =
      .ok ⟨⟨vcs ++ cm.map Prod.fst, df.rows⟩, cm,
        fillTotalDefaults (cm.map Prod.fst) []⟩ := by
  have hall : (vcs ++ cm.map Prod.fst).all (fun c => decide (c ∈ df.cols)) = true := by
    rw [List.all_eq_true]
    intro c hc
    exact decide_eq_true (hcols c hc)
  simp only [prepare, addGroupcols, tcTruthy, Bind.bind, Except.bind, hall, if_true]
  rfl

theorem mainTable_ok (p : Prepared) (vcs : List String) (gt : Bool)
    (hpv : p.cm2.flatMap (fun vd => vd.2) ≠ []) :
    mainTable p vcs gt =
      .ok (if gt then
            coreTable p.df2 p.cm2 vcs ++
              grandTotalRows p.df2 (p.cm2.map Prod.fst) p.tcFilled vcs
           else coreTable p.df2 p.cm2 vcs) := by
  rw [mainTable, if_neg hpv]
  rfl

theorem model_core_ok (df : DF) (cm : CatMap) (vcs : List String)
    (hcols : ∀ c ∈ vcs ++ cm.map Prod.fst, c ∈ df.cols)
    (hpv : cm.flatMap (fun vd => vd.2) ≠ []) :
    all_combos_non_exclusive_agg df [] cm vcs none false false =
      .ok ⟨(coreTable ⟨vcs ++ cm.map Prod.fst, df.rows⟩ cm vcs).map
            (fun q => (q.1, some q.2)),
           df, cm, none⟩ := by
  rw [all_combos_non_exclusive_agg, prepare_core_ok df cm vcs hcols]
  show (do
    let tbl1 ← mainTable ⟨⟨vcs ++ cm.map Prod.fst, df.rows⟩, cm,
      fillTotalDefaults (cm.map Prod.fst) []⟩ vcs false
    let tblF ← .ok (tbl1.map (fun q : List String × List Int => (q.1, some q.2)))
    (.ok ⟨tblF, df, cm, none⟩ : Except AggError AggResult)) = _
  rw [mainTable_ok _ vcs false hpv]
  rfl

theorem core_result_filter (df : DF) (cm : CatMap) (vcs : List String) (combo : List String)
    (hnodup : ∀ vd ∈ cm, (vd.2.map Prod.fst).Nodup)
    (hna : ∀ vd ∈ cm, ∀ ls ∈ vd.2, ls.1 ≠ "__NA__")
    (hres : ∀ vd ∈ cm, ∀ ls ∈ vd.2, ls.2.isResolved = true) :
    ((coreTable ⟨vcs ++ cm.map Prod.fst, df.rows⟩ cm vcs).map
        (fun q : List String × List Int => (q.1, some q.2))).filter
      (fun p => p.1 = combo) =
      (if (df.rows.filter (fun r => conjMatch cm combo r)).isEmpty then []
       else [(combo,
         some (aggRows vcs (df.rows.filter (fun r => conjMatch cm combo r))))]) := by
  rw [List.filter_map]
  have hpred : ((coreTable ⟨vcs ++ cm.map Prod.fst, df.rows⟩ cm vcs).filter
      ((fun p : List String × Option (List Int) => decide (p.1 = combo)) ∘
        (fun q : List String × List Int => (q.1, some q.2)))) =
      (coreTable ⟨vcs ++ cm.map Prod.fst, df.rows⟩ cm vcs).filter
        (fun p => p.1 = combo) := by
    apply List.filter_congr
    intro q _
    rfl
  rw [hpred, coreTable_filter_combo ⟨vcs ++ cm.map Prod.fst, df.rows⟩ cm vcs combo hnodup hna hres]
  show (if (df.rows.filter (fun r => conjMatch cm combo r)).isEmpty then
          ([] : List (List String × List Int))
        else [(combo, aggRows vcs (df.rows.filter (fun r => conjMatch cm combo r)))]).map
      (fun q : List String × List Int => (q.1, some q.2)) = _
  by_cases hfe : (df.rows.filter (fun r => conjMatch cm combo r)).isEmpty = true
  · rw [if_pos hfe, if_pos hfe, List.map_nil]
  · rw [if_neg hfe, if_neg hfe, List.map_cons, List.map_nil]

/-- C1: for every dataset, every family of dimensions with fully resolved
membership specs (no "ALL" sentinel) whose labels are dict keys distinct from
the reserved no-match marker, and every fixed choice of one label per dimension,
the result rows addressed by that label combination are exactly one row whose
aggregate equals the aggregate (the per-value-column sum) computed by directly
filtering the raw rows that satisfy every dimension's chosen membership set
simultaneously — logical AND across dimensions, OR within each label's own
membership set; the addressed row is absent exactly when no raw row satisfies
the conjunction. -/
theorem conjunctive_filter_equivalence (df : DF) (cm : CatMap) (vcs : List String)
    (combo : List String)
    (hcols : ∀ c ∈ vcs ++ cm.map Prod.fst, c ∈ df.cols)
    (hpv : cm.flatMap (fun vd => vd.2) ≠ [])
    (hnodup : ∀ vd ∈ cm, (vd.2.map Prod.fst).Nodup)
    (hna : ∀ vd ∈ cm, ∀ ls ∈ vd.2, ls.1 ≠ "__NA__")
    (hres : ∀ vd ∈ cm, ∀ ls ∈ vd.2, ls.2.isResolved = true)
    (hchosen : chosenFrom cm combo = true) :
    ∃ res, all_combos_non_exclusive_agg df [] cm vcs none false false = .ok res ∧
      res.tbl.filter (fun p => p.1 = combo) =
        (if (df.rows.filter (fun r => conjMatch cm combo r)).isEmpty then []
         else [(combo,
           some (aggRows vcs (df.rows.filter (fun r => conjMatch cm combo r))))]) :=
  ⟨_, model_core_ok df cm vcs hcols hpv,
    core_result_filter df cm vcs combo hnodup hna hres⟩

/-- Witness for C1 on the concrete overlapping example: the combination
("lo", "b1") addresses one row whose sum equals the direct conjunctive filter. -/
theorem conjunctive_filter_equivalence_witness :
    ∃ res, all_combos_non_exclusive_agg exDf [] exCm ["n"] none false false = .ok res ∧
      res.tbl.filter (fun p => p.1 = ["lo", "b1"]) =
        (if (exDf.rows.filter (fun r => conjMatch exCm ["lo", "b1"] r)).isEmpty then []
         else [(["lo", "b1"],
           some (aggRows ["n"] (exDf.rows.filter (fun r => conjMatch exCm ["lo", "b1"] r))))]) :=
  conjunctive_filter_equivalence exDf exCm ["n"] ["lo", "b1"]
    (by decide) (by decide) (by decide) (by decide) (by decide) (by decide)

/-- C2: a raw row whose raw value in one dimension's column belongs to the
membership sets of two distinct labels of that dimension (holding the other
dimensions' labels fixed) contributes to both labels' result rows: it lies in
both conjunctive filters, and each of the two addressed result rows holds
exactly the aggregate of its filter — the row is counted in both, excluded from
neither. -/
theorem non_exclusivity_preservation (df : DF) (cm : CatMap) (vcs : List String)
    (pre post : List String) (l1 l2 : String) (r : Row)
    (hcols : ∀ c ∈ vcs ++ cm.map Prod.fst, c ∈ df.cols)
    (hpv : cm.flatMap (fun vd => vd.2) ≠ [])
    (hnodup : ∀ vd ∈ cm, (vd.2.map Prod.fst).Nodup)
    (hna : ∀ vd ∈ cm, ∀ ls ∈ vd.2, ls.1 ≠ "__NA__")
    (hres : ∀ vd ∈ cm, ∀ ls ∈ vd.2, ls.2.isResolved = true)
    (hne : l1 ≠ l2) (hr : r ∈ df.rows)
    (h1 : conjMatch cm (pre ++ l1 :: post) r = true)
    (h2 : conjMatch cm (pre ++ l2 :: post) r = true) :
    ∃ res, all_combos_non_exclusive_agg df [] cm vcs none false false = .ok res ∧
      r ∈ df.rows.filter (fun x => conjMatch cm (pre ++ l1 :: post) x) ∧
      r ∈ df.rows.filter (fun x => conjMatch cm (pre ++ l2 :: post) x) ∧
      res.tbl.filter (fun p => p.1 = pre ++ l1 :: post) =
        [(pre ++ l1 :: post,
          some (aggRows vcs (df.rows.filter (fun x => conjMatch cm (pre ++ l1 :: post) x))))] ∧
      res.tbl.filter (fun p => p.1 = pre ++ l2 :: post) =
        [(pre ++ l2 :: post,
          some (aggRows vcs (df.rows.filter (fun x => conjMatch cm (pre ++ l2 :: post) x))))] := by
  have hm1 : r ∈ df.rows.filter (fun x => conjMatch cm (pre ++ l1 :: post) x) :=
    List.mem_filter.mpr ⟨hr, by simpa using h1⟩
  have hm2 : r ∈ df.rows.filter (fun x => conjMatch cm (pre ++ l2 :: post) x) :=
    List.mem_filter.mpr ⟨hr, by simpa using h2⟩
  have hne1 : (df.rows.filter (fun x => conjMatch cm (pre ++ l1 :: post) x)).isEmpty ≠ true := by
    intro hc
    rw [List.isEmpty_iff.mp hc] at hm1
    exact List.not_mem_nil r hm1
  have hne2 : (df.rows.filter (fun x => conjMatch cm (pre ++ l2 :: post) x)).isEmpty ≠ true := by
    intro hc
    rw [List.isEmpty_iff.mp hc] at hm2
    exact List.not_mem_nil r hm2
  refine ⟨_, model_core_ok df cm vcs hcols hpv, hm1, hm2, ?_, ?_⟩
  · rw [core_result_filter df cm vcs (pre ++ l1 :: post) hnodup hna hres, if_neg hne1]
  · rw [core_result_filter df cm vcs (pre ++ l2 :: post) hnodup hna hres, if_neg hne2]

/-- Witness for C2: the raw row with A = 3, B = "02" matches both overlapping
age labels "lo" and "mid" and contributes to both result rows. -/
theorem non_exclusivity_preservation_witness :
    ∃ res, all_combos_non_exclusive_agg exDf [] exCm ["n"] none false false = .ok res ∧
      exRowA2 ∈ exDf.rows.filter (fun x => conjMatch exCm ([] ++ "lo" :: ["b1"]) x) ∧
      exRowA2 ∈ exDf.rows.filter (fun x => conjMatch exCm ([] ++ "mid" :: ["b1"]) x) ∧
      res.tbl.filter (fun p => p.1 = [] ++ "lo" :: ["b1"]) =
        [([] ++ "lo" :: ["b1"],
          some (aggRows ["n"] (exDf.rows.filter (fun x => conjMatch exCm ([] ++ "lo" :: ["b1"]) x))))] ∧
      res.tbl.filter (fun p => p.1 = [] ++ "mid" :: ["b1"]) =
        [([] ++ "mid" :: ["b1"],
          some (aggRows ["n"] (exDf.rows.filter (fun x => conjMatch exCm ([] ++ "mid" :: ["b1"]) x))))] :=
  non_exclusivity_preservation exDf exCm ["n"] [] ["b1"] "lo" "mid" exRowA2
    (by decide) (by decide) (by decide) (by decide) (by decide) (by decide)
    (List.mem_cons_of_mem _ (List.mem_cons_self _ _)) (by decide) (by decide)

/-- C6: `parse_mapping` resolves the "ALL" sentinel to exactly the distinct
values present in the raw column passed to the current call (it is a pure
function of that column, so nothing is cached across calls), returns any other
spec unchanged, and a value in a spec that is absent from the data matches
nothing: dropping it does not change which column values pass the membership
filter, and no error arises. -/
theorem parse_mapping_spec (x : List Val) :
    ((parse_mapping Spec.all x).Nodup ∧ ∀ v, v ∈ parse_mapping Spec.all x ↔ v ∈ x) ∧
    (∀ vs, parse_mapping (Spec.vals vs) x = vs) ∧
    (∀ w vs, w ∉ x →
      x.filter (fun a => a ∈ parse_mapping (Spec.vals (w :: vs)) x) =
        x.filter (fun a => a ∈ parse_mapping (Spec.vals vs) x)) := by
  refine ⟨⟨nodup_uniqueList x, fun v => mem_uniqueList v x⟩, fun vs => rfl, ?_⟩
  intro w vs hw
  apply List.filter_congr
  intro a ha
  show decide (a ∈ w :: vs) = decide (a ∈ vs)
  have hne : a ≠ w := fun hc => hw (hc ▸ ha)
  by_cases h2 : a ∈ vs
  · rw [decide_eq_true (List.mem_cons.mpr (Or.inr h2)), decide_eq_true h2]
  · rw [decide_eq_false (fun hc => by
      rcases List.mem_cons.mp hc with h3 | h3
      · exact hne h3
      · exact h2 h3), decide_eq_false h2]

/-- Witness for C6 at a concrete column: "ALL" yields the distinct values in
appearance order, explicit specs pass through, and an absent value is inert. -/
theorem parse_mapping_spec_witness :
    ((parse_mapping Spec.all [Val.i 1, Val.i 2, Val.i 1]).Nodup ∧
      (∀ v, v ∈ parse_mapping Spec.all [Val.i 1, Val.i 2, Val.i 1] ↔
        v ∈ [Val.i 1, Val.i 2, Val.i 1])) ∧
    parse_mapping (Spec.vals [Val.i 7]) [Val.i 1, Val.i 2, Val.i 1] = [Val.i 7] ∧
    [Val.i 1, Val.i 2, Val.i 1].filter
        (fun a => a ∈ parse_mapping (Spec.vals (Val.i 5 :: [Val.i 1])) [Val.i 1, Val.i 2, Val.i 1]) =
      [Val.i 1, Val.i 2, Val.i 1].filter
        (fun a => a ∈ parse_mapping (Spec.vals [Val.i 1]) [Val.i 1, Val.i 2, Val.i 1]) :=
  ⟨(parse_mapping_spec [Val.i 1, Val.i 2, Val.i 1]).1,
   (parse_mapping_spec [Val.i 1, Val.i 2, Val.i 1]).2.1 [Val.i 7],
   (parse_mapping_spec [Val.i 1, Val.i 2, Val.i 1]).2.2 (Val.i 5) [Val.i 1] (by decide)⟩

theorem getD_map {α β : Type} (f : α → β) (d : α) :
    ∀ (l : List α) (i : Nat), i < l.length → (l.map f).getD i (f d) = f (l.getD i d)
  | [], _, hi => absurd hi (by simp)
  | _ :: _, 0, _ => rfl
  | _ :: l, i + 1, hi => by
    simp only [List.map_cons, List.getD_cons_succ]
    exact getD_map f d l i (by simpa using hi)

/-- C7: the pivot expansion of a dimension with k labels in definition order
produces exactly k indicator columns; the i-th column holds, per row, the i-th
label when the row's raw value is in the label's resolved membership set and
the reserved "__NA__" marker otherwise; a label with an empty membership spec
yields an indicator column that is the marker in every row. -/
theorem pivot_expansion_indicator (df : DF) (var : String) (dim : Dim) :
    (pivotCols df var dim).length = dim.length ∧
    (∀ i, i < dim.length →
      (pivotCols df var dim).getD i (indicatorCol df var ("", Spec.vals [])) =
        df.rows.map (fun r =>
          if r var ∈ parse_mapping (dim.getD i ("", Spec.vals [])).2 (colOf df var)
          then (dim.getD i ("", Spec.vals [])).1 else "__NA__")) ∧
    (∀ ls ∈ dim, ls.2 = Spec.vals [] →
      indicatorCol df var ls = List.replicate df.rows.length "__NA__") := by
  refine ⟨List.length_map _ _, ?_, ?_⟩
  · intro i hi
    rw [pivotCols, getD_map (indicatorCol df var) ("", Spec.vals []) dim i hi]
    rfl
  · intro ls _ hspec
    rw [indicatorCol]
    have hall : ∀ r : Row, indic df var ls r = "__NA__" := by
      intro r
      rw [indic, hspec]
      rw [if_neg (by simp [parse_mapping])]
    calc df.rows.map (indic df var ls)
        = df.rows.map (fun _ => "__NA__") := by
          apply List.map_congr_left
          intro r _
          exact hall r
      _ = List.replicate df.rows.length "__NA__" := List.map_const' _ _

/-- Witness for C7: on the example dimension the 0-th indicator column is the
membership-driven column and the empty-spec label "e" gives an all-marker
column. -/
theorem pivot_expansion_indicator_witness :
    (pivotCols exDf "A" exDimW).getD 0 (indicatorCol exDf "A" ("", Spec.vals [])) =
        exDf.rows.map (fun r =>
          if r "A" ∈ parse_mapping (exDimW.getD 0 ("", Spec.vals [])).2 (colOf exDf "A")
          then (exDimW.getD 0 ("", Spec.vals [])).1 else "__NA__") ∧
      indicatorCol exDf "A" ("e", Spec.vals []) = List.replicate exDf.rows.length "__NA__" :=
  ⟨(pivot_expansion_indicator exDf "A" exDimW).2.1 0 (by decide),
   (pivot_expansion_indicator exDf "A" exDimW).2.2 ("e", Spec.vals []) (by decide) rfl⟩

theorem addGroupcols_error (df : DF) :
    ∀ (gcs : List String) (cm : CatMap), (∃ c ∈ gcs, c ∉ df.cols) →
      ∃ e, addGroupcols df gcs cm = .error e
  | [], _, h => absurd h (by simp)
  | col :: rest, cm, h => by
    by_cases hc : col ∈ df.cols
    · rcases h with ⟨c, hcg, hnc⟩
      rcases List.mem_cons.mp hcg with h1 | h1
      · exact absurd hc (h1 ▸ hnc)
      · rcases addGroupcols_error df rest
          (if col ∈ cm.map Prod.fst then cm
           else cm ++ [(col, synthMapping (colOf df col))]) ⟨c, h1, hnc⟩ with ⟨e, he⟩
        exact ⟨e, by rw [addGroupcols, if_pos hc]; exact he⟩
    · exact ⟨.valueError col, by rw [addGroupcols, if_neg hc]⟩

theorem addGroupcols_keys (df : DF) :
    ∀ (gcs : List String) (cm cm1 : CatMap), addGroupcols df gcs cm = .ok cm1 →
      ∀ k ∈ cm.map Prod.fst, k ∈ cm1.map Prod.fst
  | [], cm, cm1, h => by
    injection h with h1
    exact h1 ▸ fun k hk => hk
  | col :: rest, cm, cm1, h => by
    by_cases hc : col ∈ df.cols
    · rw [addGroupcols, if_pos hc] at h
      intro k hk
      refine addGroupcols_keys df rest _ cm1 h k ?_
      by_cases hm : col ∈ cm.map Prod.fst
      · rw [if_pos hm]
        exact hk
      · rw [if_neg hm, List.map_append]
        exact List.mem_append.mpr (Or.inl hk)
    · rw [addGroupcols, if_neg hc] at h
      exact absurd h (fun hcon => Except.noConfusion hcon)

/-- C8: when some name in groupcols, category_mappings, or valuecols is not a
column of the dataset, the call returns a typed error (the ValueError of src 106
or the KeyError of the selection at src 118) and no table — the validation
happens before any aggregation stage runs, so there is no partial result. -/
theorem missing_column_error (df : DF) (groupcols : List String) (cm : CatMap)
    (vcs : List String) (tc : Option (List (String × String))) (ke gt : Bool)
    (hmiss : ∃ c ∈ groupcols ++ vcs ++ cm.map Prod.fst, c ∉ df.cols) :
    ∃ e, all_combos_non_exclusive_agg df groupcols cm vcs tc ke gt = .error e := by
  rcases hmiss with ⟨c, hc, hnc⟩
  have hsplit : c ∈ groupcols ∨ (c ∈ vcs ∨ c ∈ cm.map Prod.fst) := by
    rcases List.mem_append.mp hc with h12 | h3
    · rcases List.mem_append.mp h12 with h1 | h2
      · exact Or.inl h1
      · exact Or.inr (Or.inl h2)
    · exact Or.inr (Or.inr h3)
  rcases hsplit with hcg | hcrest
  · rcases addGroupcols_error df groupcols cm ⟨c, hcg, hnc⟩ with ⟨e, he⟩
    refine ⟨e, ?_⟩
    rw [all_combos_non_exclusive_agg, prepare, he]
    rfl
  · cases hag : addGroupcols df groupcols cm with
    | error e =>
      refine ⟨e, ?_⟩
      rw [all_combos_non_exclusive_agg, prepare, hag]
      rfl
    | ok cm1 =>
      refine ⟨.keyError "column not found", ?_⟩
      have hcall : c ∈ vcs ++ cm1.map Prod.fst := by
        rcases hcrest with h1 | h1
        · exact List.mem_append.mpr (Or.inl h1)
        · exact List.mem_append.mpr (Or.inr (addGroupcols_keys df groupcols cm cm1 hag c h1))
      have hfalse : ((vcs ++ cm1.map Prod.fst).all (fun c2 => decide (c2 ∈ df.cols))) = false := by
        apply Bool.eq_false_iff.mpr
        intro hall
        exact absurd (List.all_eq_true.mp hall c hcall) (by simpa using hnc)
      simp only [all_combos_non_exclusive_agg, prepare, hag, Bind.bind, Except.bind, hfalse,
        Bool.false_eq_true, if_false]

/-- Witness for C8: a groupcol name absent from the dataframe yields an error. -/
theorem missing_column_error_witness :
    ∃ e, all_combos_non_exclusive_agg exDf1 ["Z"] exCm1 ["n"] none false true = .error e :=
  missing_column_error exDf1 ["Z"] exCm1 ["n"] none false true ⟨"Z", by decide, by decide⟩

theorem exceptBind_ok_inv {ε α β : Type} {x : Except ε α} {f : α → Except ε β} {b : β}
    (h : x >>= f = .ok b) : ∃ a, x = .ok a ∧ f a = .ok b := by
  cases x with
  | error e =>
    exact absurd (h : (Except.error e : Except ε β) = Except.ok b)
      (fun hc => Except.noConfusion hc)
  | ok a => exact ⟨a, rfl, h⟩

/-- C9: the input dataset is left unchanged by the operation — the source copies
the dataframe (src 118) before building indicator columns, and the "ALL"
resolution only reads columns; in the state-threaded model every successful call
returns the caller's dataframe exactly as it was passed in: no column added,
removed, or modified. -/
theorem input_dataset_unchanged (df : DF) (groupcols : List String) (cm : CatMap)
    (vcs : List String) (tc : Option (List (String × String))) (ke gt : Bool)
    (res : AggResult)
    (h : all_combos_non_exclusive_agg df groupcols cm vcs tc ke gt = .ok res) :
    res.df = df := by
  rw [all_combos_non_exclusive_agg] at h
  rcases exceptBind_ok_inv h with ⟨p, _, h2⟩
  rcases exceptBind_ok_inv h2 with ⟨t, _, h3⟩
  cases ke with
  | false =>
    rcases exceptBind_ok_inv h3 with ⟨tf, _, h4⟩
    have h6 := congrArg
      (fun z : Except AggError AggResult => (z.toOption.map (fun r => r.df)).getD df) h4
    simpa [Except.toOption] using h6.symm
  | true =>
    rcases exceptBind_ok_inv h3 with ⟨tf, _, h4⟩
    have h6 := congrArg
      (fun z : Except AggError AggResult => (z.toOption.map (fun r => r.df)).getD df) h4
    simpa [Except.toOption] using h6.symm

/-- Witness for C9 at the one-dimension example call. -/
theorem input_dataset_unchanged_witness :
    (AggResult.mk ((coreTable ⟨["n"] ++ exCm1.map Prod.fst, exDf1.rows⟩ exCm1 ["n"]).map
      (fun q : List String × List Int => (q.1, some q.2))) exDf1 exCm1 none).df = exDf1 :=
  input_dataset_unchanged exDf1 [] exCm1 ["n"] none false false _
    (model_core_ok exDf1 exCm1 ["n"] (by decide) (by decide))

theorem prepare_df2_rows (df : DF) (groupcols : List String) (cm : CatMap)
    (vcs : List String) (tc : Option (List (String × String)))
    (p : Prepared) (hp : prepare df groupcols cm vcs tc = .ok p) :
    p.df2.rows = df.rows := by
  rw [prepare] at hp
  rcases exceptBind_ok_inv hp with ⟨cm1, _, h2⟩
  by_cases hall : (vcs ++ cm1.map Prod.fst).all (fun c => decide (c ∈ df.cols)) = true
  · rw [if_pos hall] at h2
    cases htc : tcTruthy tc with
    | false =>
      rw [htc] at h2
      rcases exceptBind_ok_inv h2 with ⟨cm2, _, h3⟩
      have h6 := congrArg
        (fun z : Except AggError Prepared => (z.toOption.map (fun q => q.df2.rows)).getD []) h3
      simpa [Except.toOption] using h6.symm
    | true =>
      rw [htc] at h2
      rcases exceptBind_ok_inv h2 with ⟨cm2, _, h3⟩
      have h6 := congrArg
        (fun z : Except AggError Prepared => (z.toOption.map (fun q => q.df2.rows)).getD []) h3
      simpa [Except.toOption] using h6.symm
  · rw [if_neg hall] at h2
    exact absurd (h2 : (Except.error (AggError.keyError "column not found") :
      Except AggError Prepared) = Except.ok p) (fun hc => Except.noConfusion hc)

theorem model_tbl_no_keepEmpty (df : DF) (groupcols : List String) (cm : CatMap)
    (vcs : List String) (tc : Option (List (String × String))) (gt : Bool)
    (p : Prepared) (hp : prepare df groupcols cm vcs tc = .ok p)
    (t : List (List String × List Int)) (hm : mainTable p vcs gt = .ok t)
    (res : AggResult)
    (h : all_combos_non_exclusive_agg df groupcols cm vcs tc false gt = .ok res) :
    res.tbl = t.map (fun q : List String × List Int => (q.1, some q.2)) := by
  rw [all_combos_non_exclusive_agg] at h
  rcases exceptBind_ok_inv h with ⟨p2, hp2, h2⟩
  rw [hp] at hp2
  injection hp2 with hpe
  subst hpe
  rcases exceptBind_ok_inv h2 with ⟨t2, hm2, h3⟩
  rw [hm] at hm2
  injection hm2 with hte
  subst hte
  rcases exceptBind_ok_inv h3 with ⟨tf, htf, h4⟩
  have htf2 : Except.ok (t.map (fun q : List String × List Int => (q.1, some q.2))) =
      Except.ok tf := htf
  injection htf2 with htf3
  have h6 := congrArg
    (fun z : Except AggError AggResult => (z.toOption.map (fun r => r.tbl)).getD []) h4
  simp [Except.toOption] at h6
  rw [← h6, ← htf3]

/-- C3 counterexample: on a dataset with zero rows and grand_total enabled, the
returned table is empty — no grand-total row is appended at all (pandas'
groupby of an empty slice yields no groups), contradicting the claim that
exactly one additional total row is always appended. -/
theorem grand_total_empty_counterexample :
    (all_combos_non_exclusive_agg exDfEmpty [] exCm1 ["n"] none false true).toOption.map
      (fun r => r.tbl) = some [] := by
  decide

/-- C3 (amended): when the dataset has at least one row, grand_total appends —
by concatenation after the core rows, never overwriting — exactly one
additional row whose every dimension/groupcol column holds that column's
configured (or default "Total") total label and whose aggregate per value
column is the sum of that column over the entire input dataset, ignoring all
dimension labels.  (On an empty dataset nothing is appended.) -/
theorem grand_total_append (df : DF) (groupcols : List String) (cm : CatMap)
    (vcs : List String) (tc : Option (List (String × String)))
    (p : Prepared) (hp : prepare df groupcols cm vcs tc = .ok p)
    (hpv : p.cm2.flatMap (fun vd => vd.2) ≠ [])
    (hrows : df.rows ≠ [])
    (res : AggResult)
    (h : all_combos_non_exclusive_agg df groupcols cm vcs tc false true = .ok res) :
    res.tbl = (coreTable p.df2 p.cm2 vcs).map
        (fun q : List String × List Int => (q.1, some q.2)) ++
      [((p.cm2.map Prod.fst).map (fun v => dlookupD p.tcFilled v "Total"),
        some (aggRows vcs df.rows))] := by
  have hd2 : p.df2.rows = df.rows := prepare_df2_rows df groupcols cm vcs tc p hp
  have hm := mainTable_ok p vcs true hpv
  rw [if_pos rfl, grandTotalRows,
    if_neg (fun hc => hrows (by rw [← hd2]; exact List.isEmpty_iff.mp hc))] at hm
  rw [model_tbl_no_keepEmpty df groupcols cm vcs tc true p hp _ hm res h,
    List.map_append, hd2]
  rfl

/-- Witness for the amended C3 at the one-dimension example: the total row
("Total", sum 1) is appended after the single core row. -/
theorem grand_total_append_witness :
    (AggResult.mk [(["x"], some [1]), (["Total"], some [1])] exDf1 exCm1 none).tbl =
      (coreTable (Prepared.mk ⟨["n", "A"], exDf1.rows⟩ exCm1 [("A", "Total")]).df2
          (Prepared.mk ⟨["n", "A"], exDf1.rows⟩ exCm1 [("A", "Total")]).cm2 ["n"]).map
        (fun q : List String × List Int => (q.1, some q.2)) ++
      [(((Prepared.mk ⟨["n", "A"], exDf1.rows⟩ exCm1 [("A", "Total")]).cm2.map Prod.fst).map
          (fun v => dlookupD (Prepared.mk ⟨["n", "A"], exDf1.rows⟩ exCm1 [("A", "Total")]).tcFilled
            v "Total"),
        some (aggRows ["n"] exDf1.rows))] :=
  grand_total_append exDf1 [] exCm1 ["n"] none
    (Prepared.mk ⟨["n", "A"], exDf1.rows⟩ exCm1 [("A", "Total")]) rfl (by decide)
    (fun hc => List.noConfusion hc)
    (AggResult.mk [(["x"], some [1]), (["Total"], some [1])] exDf1 exCm1 none) rfl

/-! Cardinality of the label product, for the row-count bound. -/

theorem mem_listProd {α : Type} : ∀ (L : List (List α)) (c : List α),
    c ∈ listProd L ↔ List.Forall₂ (fun x xs => x ∈ xs) c L
  | [], c => by
    cases c with
    | nil => simp [listProd]
    | cons a c => simp [listProd]
  | xs :: L, c => by
    cases c with
    | nil =>
      simp only [listProd, List.mem_flatMap, List.mem_map]
      constructor
      · rintro ⟨x, _, c2, _, hc⟩
        exact absurd hc (by simp)
      · intro hc
        cases hc
    | cons a c =>
      simp only [listProd, List.mem_flatMap, List.mem_map, List.forall₂_cons]
      constructor
      · rintro ⟨x, hx, c2, hc2, hveq⟩
        injection hveq with h1 h2
        exact ⟨h1 ▸ hx, (mem_listProd L c).mp (h2 ▸ hc2)⟩
      · rintro ⟨ha, hc⟩
        exact ⟨a, ha, c, (mem_listProd L c).mpr hc, rfl⟩

theorem flatMap_map_cons_length {α : Type} (S : List (List α)) :
    ∀ (xs : List α), (xs.flatMap (fun x => S.map (fun c => x :: c))).length =
      xs.length * S.length
  | [] => by simp
  | x :: xs => by
    rw [List.flatMap_cons, List.length_append, List.length_map,
      flatMap_map_cons_length S xs, List.length_cons, Nat.succ_mul, Nat.add_comm]

theorem listProd_length {α : Type} : ∀ (L : List (List α)),
    (listProd L).length = (L.map List.length).prod
  | [] => rfl
  | xs :: L => by
    rw [listProd, flatMap_map_cons_length, listProd_length L, List.map_cons, List.prod_cons]

theorem nodup_listProd {α : Type} : ∀ (L : List (List α)),
    (∀ xs ∈ L, xs.Nodup) → (listProd L).Nodup
  | [], _ => by simp [listProd]
  | xs :: L, h => by
    rw [listProd]
    have hxs : xs.Nodup := h xs (List.mem_cons_self xs L)
    have hL : (listProd L).Nodup :=
      nodup_listProd L (fun ys hys => h ys (List.mem_cons.mpr (Or.inr hys)))
    clear h
    induction xs with
    | nil => simp
    | cons x xs ih =>
      rcases List.nodup_cons.mp hxs with ⟨hx, hxs2⟩
      rw [List.flatMap_cons]
      apply List.Nodup.append
      · exact hL.map (fun a b hab => by injection hab)
      · exact ih hxs2
      · intro c hc1 hc2
        rcases List.mem_map.mp hc1 with ⟨c1, _, hc1e⟩
        rcases List.mem_flatMap.mp hc2 with ⟨x2, hx2, hc2m⟩
        rcases List.mem_map.mp hc2m with ⟨c2, _, hc2e⟩
        rw [← hc1e] at hc2e
        injection hc2e with h1 _
        exact hx (h1 ▸ hx2)

theorem selectable_nil_cons (rest : List String) (l : String) (cs : List String) :
    selectable [] rest (l :: cs) = false := rfl

theorem selectable_cons_nil (n : Nat) (ns : List Nat) (rest : List String) :
    selectable (n :: ns) rest [] = false := rfl

theorem selectable_rowKey_mem_listProd (df : DF) :
    ∀ (cm : CatMap) (combo : List String) (r : Row),
    selectable (cm.map (fun vd => vd.2.length)) (rowKey df cm r) combo = true →
    combo ∈ listProd (cm.map (fun vd => vd.2.map Prod.fst))
  | [], combo, r, h => by
    cases combo with
    | nil => simp [listProd]
    | cons l cs =>
      rw [List.map_nil, selectable_nil_cons] at h
      exact absurd h (by simp)
  | vd :: cm, combo, r, h => by
    cases combo with
    | nil =>
      rw [List.map_cons, selectable_cons_nil] at h
      exact absurd h (by simp)
    | cons l cs =>
      rw [List.map_cons, show rowKey df (vd :: cm) r =
        (vd.2.map (fun ls => indic df vd.1 ls r)) ++ rowKey df cm r from
        List.flatMap_cons _ _ _] at h
      have hlen : (vd.2.map (fun ls => indic df vd.1 ls r)).length = vd.2.length :=
        List.length_map _ _
      rw [show selectable (vd.2.length :: cm.map (fun vd => vd.2.length))
          ((vd.2.map (fun ls => indic df vd.1 ls r)) ++ rowKey df cm r) (l :: cs) =
        (decide (l ∈ (((vd.2.map (fun ls => indic df vd.1 ls r)) ++ rowKey df cm r).take
            vd.2.length).filter (fun v => v ≠ "__NA__")) &&
          selectable (cm.map (fun vd => vd.2.length))
            (((vd.2.map (fun ls => indic df vd.1 ls r)) ++ rowKey df cm r).drop vd.2.length) cs)
        from rfl, ← hlen, List.take_left, List.drop_left, Bool.and_eq_true] at h
      rcases h with ⟨h1, h2⟩
      rw [List.map_cons, listProd]
      apply List.mem_flatMap.mpr
      refine ⟨l, mem_indic_filter_label df vd.1 vd.2 r l (by simpa using h1), ?_⟩
      exact List.mem_map.mpr ⟨cs, selectable_rowKey_mem_listProd df cm cs r h2, rfl⟩

theorem melted_done_mem_listProd (df2 : DF) (cm : CatMap) (vcs : List String)
    (combo : List String)
    (hc : combo ∈ (meltAll (cm.map (fun vd => vd.2.length))
        ((groupby1 df2 cm vcs).map (fun b => MRow.mk [] b.1 b.2))).map MRow.done) :
    combo ∈ listProd (cm.map (fun vd => vd.2.map Prod.fst)) := by
  rw [((meltAll_perm_canonical df2 cm vcs).map MRow.done).mem_iff, List.map_flatMap] at hc
  rcases List.mem_flatMap.mp hc with ⟨b, hb, hin⟩
  rw [List.map_map] at hin
  rcases List.mem_map.mp hin with ⟨c, hcs, hcc⟩
  have hc2 : c = combo := hcc
  subst hc2
  rcases List.mem_map.mp hb with ⟨k, hk, hbk⟩
  rcases List.mem_map.mp ((mem_uniqueList k _).mp hk) with ⟨r, _, hkr⟩
  have hb1 : b.1 = k := by rw [← hbk]
  apply selectable_rowKey_mem_listProd df2 cm c r
  rw [hkr, ← hb1]
  exact (sels_mem _ b.1 c).mp hcs

theorem regroup_keys (n : Nat) (melted : List MRow) :
    (regroup n melted).map Prod.fst = uniqueList (melted.map MRow.done) := by
  rw [regroup, List.map_map]
  have h1 : ∀ k ∈ uniqueList (melted.map MRow.done),
      (Prod.fst ∘ fun k => (k, sumVals n ((melted.filter (fun m => m.done = k)).map MRow.vals))) k
        = k := fun k _ => rfl
  rw [List.map_congr_left h1]
  exact List.map_id' _

theorem coreTable_keys_nodup (df2 : DF) (cm : CatMap) (vcs : List String) :
    ((coreTable df2 cm vcs).map Prod.fst).Nodup := by
  rw [coreTable, regroup_keys]
  exact nodup_uniqueList _

theorem coreTable_length_le (df2 : DF) (cm : CatMap) (vcs : List String) :
    (coreTable df2 cm vcs).length ≤ (cm.map (fun vd => vd.2.length)).prod := by
  have hlen : (coreTable df2 cm vcs).length =
      (uniqueList ((meltAll (cm.map (fun vd => vd.2.length))
        ((groupby1 df2 cm vcs).map (fun b => MRow.mk [] b.1 b.2))).map MRow.done)).length := by
    rw [← regroup_keys vcs.length, List.length_map, coreTable]
  rw [hlen]
  have hsub : uniqueList ((meltAll (cm.map (fun vd => vd.2.length))
      ((groupby1 df2 cm vcs).map (fun b => MRow.mk [] b.1 b.2))).map MRow.done) ⊆
      listProd (cm.map (fun vd => vd.2.map Prod.fst)) := by
    intro c hcu
    exact melted_done_mem_listProd df2 cm vcs c ((mem_uniqueList c _).mp hcu)
  have hbound := (List.subperm_of_subset (nodup_uniqueList _) hsub).length_le
  rw [listProd_length, List.map_map] at hbound
  have hmapeq : (cm.map (List.length ∘ fun vd => vd.2.map Prod.fst)) =
      cm.map (fun vd => vd.2.length) := by
    apply List.map_congr_left
    intro vd _
    exact List.length_map _ _
  rw [hmapeq] at hbound
  exact hbound

theorem model_mainTable_inv (df : DF) (groupcols : List String) (cm : CatMap)
    (vcs : List String) (tc : Option (List (String × String))) (gt : Bool)
    (p : Prepared) (hp : prepare df groupcols cm vcs tc = .ok p)
    (res : AggResult)
    (h : all_combos_non_exclusive_agg df groupcols cm vcs tc false gt = .ok res) :
    ∃ t, mainTable p vcs gt = .ok t ∧
      res.tbl = t.map (fun q : List String × List Int => (q.1, some q.2)) := by
  have h2 := h
  rw [all_combos_non_exclusive_agg] at h2
  rcases exceptBind_ok_inv h2 with ⟨p2, hp2, h3⟩
  rw [hp] at hp2
  injection hp2 with hpe
  subst hpe
  rcases exceptBind_ok_inv h3 with ⟨t, hm, _⟩
  exact ⟨t, hm, model_tbl_no_keepEmpty df groupcols cm vcs tc gt p hp t hm res h⟩

/-- C5 counterexample: with totalcodes supplied and grand_total enabled (the
very situation the claim includes), the combination addressed by the total
label appears in two rows of the returned table, not at most one: the core
regroup already realizes it (the "__ALL__" total label matches every row) and
the grand-total append duplicates it. -/
theorem at_most_one_row_counterexample :
    (all_combos_non_exclusive_agg exDf1 [] exCm1 ["n"] (some [("A", "T")]) false true).toOption.map
      (fun r => r.tbl.countP (fun q => q.1 = ["T"])) = some 2 := by
  decide

/-- C5 (amended): for every call without keep_empty, the rows before the
grand-total append have pairwise-distinct key combinations (each realized
combination addresses at most one core row), and the returned row count is at
most the product of per-dimension label counts (synthesized group-column
dimensions included) plus one when grand_total is enabled — but the appended
grand-total row may address the same combination as a core row (it always does
when totalcodes is supplied and the full-total combination is realized). -/
theorem row_count_bound (df : DF) (groupcols : List String) (cm : CatMap)
    (vcs : List String) (tc : Option (List (String × String))) (gt : Bool)
    (p : Prepared) (hp : prepare df groupcols cm vcs tc = .ok p)
    (res : AggResult)
    (h : all_combos_non_exclusive_agg df groupcols cm vcs tc false gt = .ok res) :
    ((coreTable p.df2 p.cm2 vcs).map Prod.fst).Nodup ∧
    res.tbl.length ≤ (p.cm2.map (fun vd => vd.2.length)).prod + (if gt then 1 else 0) := by
  refine ⟨coreTable_keys_nodup p.df2 p.cm2 vcs, ?_⟩
  rcases model_mainTable_inv df groupcols cm vcs tc gt p hp res h with ⟨t, hm, htbl⟩
  rw [htbl, List.length_map]
  by_cases hpv : p.cm2.flatMap (fun vd => vd.2) = []
  · rw [mainTable, if_pos hpv] at hm
    exact absurd hm (fun hc => Except.noConfusion hc)
  · rw [mainTable_ok p vcs gt hpv] at hm
    injection hm with hte
    rw [← hte]
    have hg : (grandTotalRows p.df2 (p.cm2.map Prod.fst) p.tcFilled vcs).length ≤ 1 := by
      rw [grandTotalRows]
      by_cases he : p.df2.rows.isEmpty = true
      · rw [if_pos he]
        exact Nat.zero_le 1
      · rw [if_neg he]
        exact Nat.le_refl 1
    cases gt with
    | false => simpa using coreTable_length_le p.df2 p.cm2 vcs
    | true =>
      have hsum := Nat.add_le_add (coreTable_length_le p.df2 p.cm2 vcs) hg
      simpa [List.length_append] using hsum

/-- Witness for the amended C5 at the duplicate-total example: the core keys
are distinct and the three returned rows respect the bound 2 + 1. -/
theorem row_count_bound_witness :
    ((coreTable (Prepared.mk ⟨["n", "A"], exDf1.rows⟩
          [("A", [("x", Spec.vals [Val.i 1]), ("T", Spec.all)])] [("A", "T")]).df2
        (Prepared.mk ⟨["n", "A"], exDf1.rows⟩
          [("A", [("x", Spec.vals [Val.i 1]), ("T", Spec.all)])] [("A", "T")]).cm2
        ["n"]).map Prod.fst).Nodup ∧
    (AggResult.mk [(["x"], some [1]), (["T"], some [1]), (["T"], some [1])] exDf1
        [("A", [("x", Spec.vals [Val.i 1]), ("T", Spec.all)])] (some [("A", "T")])).tbl.length ≤
      ((Prepared.mk ⟨["n", "A"], exDf1.rows⟩
          [("A", [("x", Spec.vals [Val.i 1]), ("T", Spec.all)])] [("A", "T")]).cm2.map
        (fun vd => vd.2.length)).prod + (if true then 1 else 0) :=
  row_count_bound exDf1 [] exCm1 ["n"] (some [("A", "T")]) true
    (Prepared.mk ⟨["n", "A"], exDf1.rows⟩
      [("A", [("x", Spec.vals [Val.i 1]), ("T", Spec.all)])] [("A", "T")]) rfl
    (AggResult.mk [(["x"], some [1]), (["T"], some [1]), (["T"], some [1])] exDf1
      [("A", [("x", Spec.vals [Val.i 1]), ("T", Spec.all)])] (some [("A", "T")])) rfl

theorem model_keepEmpty_inv (df : DF) (groupcols : List String) (cm : CatMap)
    (vcs : List String) (tc : Option (List (String × String))) (gt : Bool)
    (p : Prepared) (hp : prepare df groupcols cm vcs tc = .ok p)
    (res : AggResult)
    (h : all_combos_non_exclusive_agg df groupcols cm vcs tc true gt = .ok res) :
    ∃ t, mainTable p vcs gt = .ok t ∧
      keepEmptyFill (p.cm2.map Prod.fst).length t = .ok res.tbl := by
  rw [all_combos_non_exclusive_agg] at h
  rcases exceptBind_ok_inv h with ⟨p2, hp2, h2⟩
  rw [hp] at hp2
  injection hp2 with hpe
  subst hpe
  rcases exceptBind_ok_inv h2 with ⟨t, hm, h3⟩
  rcases exceptBind_ok_inv h3 with ⟨tf, hkf, h4⟩
  have h6 := congrArg
    (fun z : Except AggError AggResult => (z.toOption.map (fun r => r.tbl)).getD []) h4
  simp [Except.toOption] at h6
  refine ⟨t, hm, ?_⟩
  rw [hkf, h6]

theorem keepEmptyFill_ok_inv (d : Nat) (t : List (List String × List Int))
    (out : List (List String × Option (List Int)))
    (h : keepEmptyFill d t = .ok out) :
    out = (listProd (colUniques t d)).flatMap (fun c =>
      if (t.filter (fun q => q.1 = c)).isEmpty then [(c, (none : Option (List Int)))]
      else (t.filter (fun q => q.1 = c)).map (fun q => (c, some q.2))) := by
  rw [keepEmptyFill] at h
  by_cases hg : listProd (colUniques t d) = [] ∧ 2 ≤ d
  · rw [if_pos hg] at h
    exact absurd h (fun hc => Except.noConfusion hc)
  · rw [if_neg hg] at h
    injection h with h2
    exact h2.symm

theorem filter_key_singleton {t : List (List String × List Int)}
    (hnd : (t.map Prod.fst).Nodup) (c : List String)
    (hne : ¬((t.filter (fun q => q.1 = c)).isEmpty = true)) :
    ∃ v, t.filter (fun q => q.1 = c) = [(c, v)] ∧ (c, v) ∈ t := by
  have hmap : (t.filter (fun q => q.1 = c)).map Prod.fst =
      (t.map Prod.fst).filter (fun x => x = c) := by
    rw [List.filter_map]
    congr 1
  rw [nodup_filter_eq hnd c] at hmap
  by_cases hc : c ∈ t.map Prod.fst
  · rw [if_pos hc] at hmap
    have hlen : (t.filter (fun q => q.1 = c)).length = 1 := by
      rw [← List.length_map (t.filter (fun q => q.1 = c)) Prod.fst, hmap]
      rfl
    rcases List.length_eq_one.mp hlen with ⟨q, hq⟩
    have hq1 : q.1 = c := by
      rw [hq, List.map_cons, List.map_nil] at hmap
      injection hmap
    refine ⟨q.2, ?_, ?_⟩
    · rw [hq, ← hq1]
    · have hqt : q ∈ t := List.mem_of_mem_filter (hq ▸ List.mem_cons_self q [])
      rw [← hq1]
      exact hqt
  · rw [if_neg hc] at hmap
    rcases List.map_eq_nil_iff.mp hmap with hnil
    rw [hnil] at hne
    exact (hne rfl).elim

theorem keepEmptyFill_body_keys (t : List (List String × List Int))
    (hnd : (t.map Prod.fst).Nodup) (combos : List (List String)) :
    (combos.flatMap (fun c =>
      if (t.filter (fun q => q.1 = c)).isEmpty then [(c, (none : Option (List Int)))]
      else (t.filter (fun q => q.1 = c)).map (fun q => (c, some q.2)))).map Prod.fst =
      combos := by
  rw [List.map_flatMap]
  have hblock : ∀ c ∈ combos,
      ((if (t.filter (fun q => q.1 = c)).isEmpty then [(c, (none : Option (List Int)))]
        else (t.filter (fun q => q.1 = c)).map (fun q => (c, some q.2))).map Prod.fst) =
      [c] := by
    intro c _
    by_cases he : (t.filter (fun q => q.1 = c)).isEmpty = true
    · rw [if_pos he]
      rfl
    · rw [if_neg he]
      rcases filter_key_singleton hnd c he with ⟨v, hfv, _⟩
      rw [hfv]
      rfl
  rw [flatMap_congr_fun hblock, flatMap_id_singleton]

theorem keepEmptyFill_body_mem (t : List (List String × List Int))
    (hnd : (t.map Prod.fst).Nodup) (combos : List (List String))
    (q : List String × Option (List Int))
    (hq : q ∈ combos.flatMap (fun c =>
      if (t.filter (fun q2 => q2.1 = c)).isEmpty then [(c, (none : Option (List Int)))]
      else (t.filter (fun q2 => q2.1 = c)).map (fun q2 => (c, some q2.2)))) :
    (q.2 = none ↔ q.1 ∉ t.map Prod.fst) ∧ (∀ v, q.2 = some v → (q.1, v) ∈ t) := by
  rcases List.mem_flatMap.mp hq with ⟨c, _, hqb⟩
  by_cases he : (t.filter (fun q2 => q2.1 = c)).isEmpty = true
  · rw [if_pos he] at hqb
    rcases List.mem_singleton.mp hqb with hq2
    subst hq2
    have hnotin : c ∉ t.map Prod.fst := by
      intro hcm
      rcases List.mem_map.mp hcm with ⟨q2, hq2t, hq2c⟩
      have : q2 ∈ t.filter (fun q2 => q2.1 = c) :=
        List.mem_filter.mpr ⟨hq2t, by simpa using hq2c⟩
      rw [List.isEmpty_iff.mp he] at this
      exact List.not_mem_nil q2 this
    exact ⟨⟨fun _ => hnotin, fun _ => rfl⟩, fun v hv => Option.noConfusion hv⟩
  · rw [if_neg he] at hqb
    rcases filter_key_singleton hnd c he with ⟨v, hfv, hvt⟩
    rw [hfv, List.map_cons, List.map_nil] at hqb
    rcases List.mem_singleton.mp hqb with hq2
    subst hq2
    have hcm : c ∈ t.map Prod.fst := by
      have := List.mem_map_of_mem Prod.fst hvt
      simpa using this
    refine ⟨⟨fun hc2 => absurd hc2 (by simp), fun hn => absurd hcm hn⟩, ?_⟩
    intro v2 hv2
    injection hv2 with hv3
    rw [← hv3]
    exact hvt

/-- C4 counterexample: with keep_empty enabled, totalcodes supplied and
grand_total on, the product tuple for the total label is matched by two rows of
the pre-fill result, and the left merge keeps both — the returned table holds
two rows for that tuple, not exactly one. -/
theorem keep_empty_unique_counterexample :
    (all_combos_non_exclusive_agg exDf1 [] exCm1 ["n"] (some [("A", "T")]) true true).toOption.map
      (fun r => r.tbl.countP (fun q => q.1 = ["T"])) = some 2 := by
  decide

/-- C4 (amended): when keep_empty is true and the pre-fill table's key
combinations are pairwise distinct (which totalcodes with grand_total can
violate), the returned table's keys are exactly — each exactly once — the
Cartesian product of the distinct label values observed per dimension column of
the pre-fill result (so a label declared in a mapping but matching no row is
absent); a tuple carries a null (None) aggregate iff it is unsupported, and a
non-null row carries exactly the pre-fill aggregate of its tuple. -/
theorem keep_empty_fill_characterization (df : DF) (groupcols : List String)
    (cm : CatMap) (vcs : List String) (tc : Option (List (String × String))) (gt : Bool)
    (p : Prepared) (hp : prepare df groupcols cm vcs tc = .ok p)
    (t : List (List String × List Int)) (hm : mainTable p vcs gt = .ok t)
    (hnd : (t.map Prod.fst).Nodup)
    (res : AggResult)
    (h : all_combos_non_exclusive_agg df groupcols cm vcs tc true gt = .ok res) :
    res.tbl.map Prod.fst = listProd (colUniques t (p.cm2.map Prod.fst).length) ∧
    (res.tbl.map Prod.fst).Nodup ∧
    (∀ q ∈ res.tbl, (q.2 = none ↔ q.1 ∉ t.map Prod.fst)) ∧
    (∀ q ∈ res.tbl, ∀ v, q.2 = some v → (q.1, v) ∈ t) := by
  rcases model_keepEmpty_inv df groupcols cm vcs tc gt p hp res h with ⟨t2, hm2, hkf⟩
  rw [hm] at hm2
  injection hm2 with hte
  subst hte
  have hbody := keepEmptyFill_ok_inv (p.cm2.map Prod.fst).length t res.tbl hkf
  have hkeys : res.tbl.map Prod.fst = listProd (colUniques t (p.cm2.map Prod.fst).length) := by
    rw [hbody]
    exact keepEmptyFill_body_keys t hnd _
  refine ⟨hkeys, ?_, ?_, ?_⟩
  · rw [hkeys]
    apply nodup_listProd
    intro xs hxs
    rcases List.mem_map.mp hxs with ⟨j, _, hj⟩
    rw [← hj]
    exact nodup_uniqueList _
  · intro q hqmem
    rw [hbody] at hqmem
    exact (keepEmptyFill_body_mem t hnd _ q hqmem).1
  · intro q hqmem
    rw [hbody] at hqmem
    exact (keepEmptyFill_body_mem t hnd _ q hqmem).2

/-- Witness for the amended C4 at a one-dimension call: the filled table's keys
are exactly the product of the observed labels, with no null rows. -/
theorem keep_empty_fill_characterization_witness :
    (AggResult.mk [(["x"], some [1])] exDf1 exCm1 none).tbl.map Prod.fst =
      listProd (colUniques [(["x"], [1])]
        ((Prepared.mk ⟨["n", "A"], exDf1.rows⟩ exCm1 [("A", "Total")]).cm2.map Prod.fst).length) ∧
    ((AggResult.mk [(["x"], some [1])] exDf1 exCm1 none).tbl.map Prod.fst).Nodup ∧
    (∀ q ∈ (AggResult.mk [(["x"], some [1])] exDf1 exCm1 none).tbl,
      (q.2 = none ↔ q.1 ∉ ([(["x"], [1])] : List (List String × List Int)).map Prod.fst)) ∧
    (∀ q ∈ (AggResult.mk [(["x"], some [1])] exDf1 exCm1 none).tbl,
      ∀ v, q.2 = some v → (q.1, v) ∈ ([(["x"], [1])] : List (List String × List Int))) :=
  keep_empty_fill_characterization exDf1 [] exCm1 ["n"] none false
    (Prepared.mk ⟨["n", "A"], exDf1.rows⟩ exCm1 [("A", "Total")]) rfl
    [(["x"], [1])] rfl (by decide)
    (AggResult.mk [(["x"], some [1])] exDf1 exCm1 none) rfl

theorem dlookup_append {α : Type} (k : String) (d1 d2 : List (String × α)) :
    dlookup k (d1 ++ d2) = match dlookup k d1 with
      | some v => some v
      | none => dlookup k d2 := by
  induction d1 with
  | nil => rfl
  | cons p d ih =>
    rw [List.cons_append, dlookup, dlookup]
    by_cases hp : p.1 = k
    · rw [if_pos hp, if_pos hp]
    · rw [if_neg hp, if_neg hp, ih]

theorem dlookup_eq_none_iff {α : Type} (k : String) (d : List (String × α)) :
    dlookup k d = none ↔ k ∉ d.map Prod.fst := by
  induction d with
  | nil => simp [dlookup]
  | cons p d ih =>
    rw [dlookup, List.map_cons, List.mem_cons]
    by_cases hp : p.1 = k
    · rw [if_pos hp]
      constructor
      · intro hc
        exact Option.noConfusion hc
      · intro hn
        exact absurd (Or.inl hp.symm) hn
    · rw [if_neg hp, ih]
      constructor
      · intro hn hor
        rcases hor with h1 | h2
        · exact hp h1.symm
        · exact hn h2
      · intro hn h2
        exact hn (Or.inr h2)

theorem dlookup_append_right_none {α : Type} (k : String) (d1 d2 : List (String × α))
    (h : k ∉ d1.map Prod.fst) : dlookup k (d1 ++ d2) = dlookup k d2 := by
  rw [dlookup_append, (dlookup_eq_none_iff k d1).mpr h]

theorem dlookup_append_left {α : Type} (k : String) (d1 d2 : List (String × α)) (v : α)
    (h : dlookup k d1 = some v) : dlookup k (d1 ++ d2) = some v := by
  rw [dlookup_append, h]

theorem dlookup_cons_self {α : Type} (k : String) (v : α) (d : List (String × α)) :
    dlookup k ((k, v) :: d) = some v := by
  rw [dlookup]
  exact if_pos rfl

theorem dlookup_mapReplace_self {α : Type} (k : String) (v : α) (d : List (String × α))
    (hk : k ∈ d.map Prod.fst) :
    dlookup k (d.map (fun p => if p.1 = k then (k, v) else p)) = some v := by
  induction d with
  | nil => exact absurd hk (List.not_mem_nil k)
  | cons p d ih =>
    rw [List.map_cons]
    by_cases hp : p.1 = k
    · rw [if_pos hp]
      exact dlookup_cons_self k v _
    · rw [if_neg hp, dlookup, if_neg hp]
      apply ih
      rcases List.mem_cons.mp hk with h1 | h2
      · exact absurd (h1.symm) hp
      · exact h2

theorem dlookup_mapReplace_ne {α : Type} (k k' : String) (v : α) (hne : k' ≠ k)
    (d : List (String × α)) :
    dlookup k' (d.map (fun p => if p.1 = k then (k, v) else p)) = dlookup k' d := by
  induction d with
  | nil => rfl
  | cons p d ih =>
    rw [List.map_cons]
    by_cases hp : p.1 = k
    · rw [if_pos hp, dlookup, dlookup]
      have hk1 : ¬((k, v).1 = k') := fun hc => hne hc.symm
      have hp1 : ¬(p.1 = k') := by
        rw [hp]
        exact fun hc => hne hc.symm
      rw [if_neg hk1, if_neg hp1, ih]
    · rw [if_neg hp, dlookup, dlookup]
      by_cases hp2 : p.1 = k'
      · rw [if_pos hp2, if_pos hp2]
      · rw [if_neg hp2, if_neg hp2, ih]

theorem dlookup_dictInsert_self {α : Type} (d : List (String × α)) (k : String) (v : α) :
    dlookup k (dictInsert d k v) = some v := by
  rw [dictInsert]
  by_cases hk : k ∈ d.map Prod.fst
  · rw [if_pos hk]
    exact dlookup_mapReplace_self k v d hk
  · rw [if_neg hk, dlookup_append_right_none k d _ hk]
    exact dlookup_cons_self k v []

theorem dlookup_dictInsert_ne {α : Type} (d : List (String × α)) (k k' : String) (v : α)
    (hne : k' ≠ k) : dlookup k' (dictInsert d k v) = dlookup k' d := by
  rw [dictInsert]
  by_cases hk : k ∈ d.map Prod.fst
  · rw [if_pos hk]
    exact dlookup_mapReplace_ne k k' v hne d
  · rw [if_neg hk, dlookup_append]
    cases hd : dlookup k' d with
    | some w => rfl
    | none =>
      show dlookup k' [(k, v)] = none
      rw [dlookup, if_neg (fun hc : (k, v).1 = k' => hne hc.symm)]
      rfl

theorem addGroupcols_mono (df : DF) :
    ∀ (gcs : List String) (cm cm1 : CatMap), addGroupcols df gcs cm = .ok cm1 →
      ∃ ext, cm1 = cm ++ ext
  | [], cm, cm1, h => by
    injection h with h1
    exact ⟨[], by rw [← h1, List.append_nil]⟩
  | col :: rest, cm, cm1, h => by
    rw [addGroupcols] at h
    by_cases hc : col ∈ df.cols
    · rw [if_pos hc] at h
      by_cases hm : col ∈ cm.map Prod.fst
      · rw [if_pos hm] at h
        exact addGroupcols_mono df rest cm cm1 h
      · rw [if_neg hm] at h
        rcases addGroupcols_mono df rest _ cm1 h with ⟨ext, he⟩
        exact ⟨[(col, synthMapping (colOf df col))] ++ ext, by rw [he, List.append_assoc]⟩
    · rw [if_neg hc] at h
      exact absurd h (fun hc2 => Except.noConfusion hc2)

theorem addGroupcols_lookup (df : DF) :
    ∀ (gcs : List String) (cm cm1 : CatMap), addGroupcols df gcs cm = .ok cm1 →
      ∀ col ∈ gcs, col ∉ cm.map Prod.fst →
        dlookup col cm1 = some (synthMapping (colOf df col))
  | [], cm, cm1, h, col, hcol, hnm => absurd hcol (List.not_mem_nil col)
  | c :: rest, cm, cm1, h, col, hcol, hnm => by
    rw [addGroupcols] at h
    by_cases hc : c ∈ df.cols
    · rw [if_pos hc] at h
      by_cases hceq : c = col
      · subst hceq
        rw [if_neg hnm] at h
        rcases addGroupcols_mono df rest _ cm1 h with ⟨ext, he⟩
        rw [he]
        apply dlookup_append_left
        rw [dlookup_append_right_none c cm _ hnm]
        exact dlookup_cons_self c _ []
      · have hcol2 : col ∈ rest := by
          rcases List.mem_cons.mp hcol with h1 | h2
          · exact absurd h1.symm hceq
          · exact h2
        by_cases hm : c ∈ cm.map Prod.fst
        · rw [if_pos hm] at h
          exact addGroupcols_lookup df rest cm cm1 h col hcol2 hnm
        · rw [if_neg hm] at h
          apply addGroupcols_lookup df rest _ cm1 h col hcol2
          rw [List.map_append, List.mem_append]
          intro hor
          rcases hor with h1 | h2
          · exact hnm h1
          · rcases List.mem_cons.mp h2 with h3 | h4
            · exact hceq h3.symm
            · exact absurd h4 (List.not_mem_nil col)
    · rw [if_neg hc] at h
      exact absurd h (fun hc2 => Except.noConfusion hc2)

theorem addAllCodes_preserved :
    ∀ (l : List (String × String)) (cm cm2 : CatMap), addAllCodes l cm = .ok cm2 →
      ∀ k, k ∉ l.map Prod.fst → dlookup k cm2 = dlookup k cm
  | [], cm, cm2, h, k, hk => by
    injection h with h1
    exact congrArg (dlookup k) h1.symm
  | (var, code) :: rest, cm, cm2, h, k, hk => by
    rw [addAllCodes] at h
    cases hd : dlookup var cm with
    | none =>
      rw [hd] at h
      exact absurd h (fun hc => Except.noConfusion hc)
    | some dim =>
      rw [hd] at h
      have hk1 : k ≠ var := fun hc => hk (by
        rw [List.map_cons, hc]
        exact List.mem_cons_self var _)
      have hk2 : k ∉ rest.map Prod.fst := fun hc => hk (by
        rw [List.map_cons]
        exact List.mem_cons_of_mem _ hc)
      rw [addAllCodes_preserved rest _ cm2 h k hk2]
      exact dlookup_dictInsert_ne cm var k (dictInsert dim code Spec.all) hk1

theorem addAllCodes_lookup :
    ∀ (l : List (String × String)) (cm cm2 : CatMap), (l.map Prod.fst).Nodup →
      addAllCodes l cm = .ok cm2 →
      ∀ vc ∈ l, ∃ dim2, dlookup vc.1 cm2 = some dim2 ∧ dlookup vc.2 dim2 = some Spec.all
  | [], cm, cm2, hnd, h, vc, hvc => absurd hvc (List.not_mem_nil vc)
  | (var, code) :: rest, cm, cm2, hnd, h, vc, hvc => by
    rw [addAllCodes] at h
    rw [List.map_cons] at hnd
    rcases List.nodup_cons.mp hnd with ⟨hvn, hnd2⟩
    cases hd : dlookup var cm with
    | none =>
      rw [hd] at h
      exact absurd h (fun hc => Except.noConfusion hc)
    | some dim =>
      rw [hd] at h
      rcases List.mem_cons.mp hvc with h1 | h2
      · subst h1
        refine ⟨dictInsert dim code Spec.all, ?_, ?_⟩
        · rw [addAllCodes_preserved rest _ cm2 h var hvn]
          exact dlookup_dictInsert_self cm var _
        · exact dlookup_dictInsert_self dim code Spec.all
      · exact addAllCodes_lookup rest _ cm2 hnd2 h vc h2

theorem foldl_fill_extends (pv : List String) :
    ∀ tc : List (String × String),
      ∃ ext, pv.foldl (fun acc var => if var ∈ acc.map Prod.fst then acc
        else acc ++ [(var, "Total")]) tc = tc ++ ext ∧ ∀ vc ∈ ext, vc.2 = "Total" := by
  induction pv with
  | nil =>
    intro tc
    exact ⟨[], by rw [List.foldl_nil, List.append_nil],
      fun vc h => absurd h (List.not_mem_nil vc)⟩
  | cons v pv ih =>
    intro tc
    rw [List.foldl_cons]
    by_cases hv : v ∈ tc.map Prod.fst
    · rw [if_pos hv]
      exact ih tc
    · rw [if_neg hv]
      rcases ih (tc ++ [(v, "Total")]) with ⟨ext, he, hall⟩
      refine ⟨(v, "Total") :: ext, ?_, ?_⟩
      · rw [he, List.append_assoc]
        rfl
      · intro vc hvc
        rcases List.mem_cons.mp hvc with h1 | h2
        · rw [h1]
        · exact hall vc h2

theorem fillTotalDefaults_lookup_mem (pv : List String) (tc : List (String × String))
    (hnd : (tc.map Prod.fst).Nodup) (vc : String × String) (hvc : vc ∈ tc) :
    dlookup vc.1 (fillTotalDefaults pv tc) = some vc.2 := by
  rcases foldl_fill_extends pv tc with ⟨ext, he, _⟩
  rw [fillTotalDefaults, he]
  exact dlookup_append_left vc.1 tc ext vc.2 (dlookup_of_mem_nodup hnd hvc)

theorem fillTotalDefaults_lookup_unset :
    ∀ (pv : List String) (tc : List (String × String)) (var : String), var ∈ pv →
      var ∉ tc.map Prod.fst → dlookup var (fillTotalDefaults pv tc) = some "Total"
  | [], tc, var, hv, hk => absurd hv (List.not_mem_nil var)
  | v :: pv, tc, var, hv, hk => by
    rw [fillTotalDefaults, List.foldl_cons]
    by_cases hvm : v ∈ tc.map Prod.fst
    · rw [if_pos hvm]
      have hvp : var ∈ pv := by
        rcases List.mem_cons.mp hv with h1 | h2
        · exact absurd (h1 ▸ hvm) hk
        · exact h2
      exact fillTotalDefaults_lookup_unset pv tc var hvp hk
    · rw [if_neg hvm]
      by_cases hveq : var = v
      · subst hveq
        rcases foldl_fill_extends pv (tc ++ [(var, "Total")]) with ⟨ext, he, _⟩
        rw [he]
        apply dlookup_append_left
        rw [dlookup_append_right_none var tc _ hk]
        exact dlookup_cons_self var _ []
      · have hvp : var ∈ pv := by
          rcases List.mem_cons.mp hv with h1 | h2
          · exact absurd h1 hveq
          · exact h2
        have hk2 : var ∉ (tc ++ [(v, "Total")]).map Prod.fst := by
          rw [List.map_append, List.mem_append]
          intro hor
          rcases hor with h1 | h2
          · exact hk h1
          · rcases List.mem_cons.mp h2 with h3 | h4
            · exact hveq h3
            · exact absurd h4 (List.not_mem_nil var)
        exact fillTotalDefaults_lookup_unset pv (tc ++ [(v, "Total")]) var hvp hk2

theorem model_out_config (df : DF) (groupcols : List String) (cm : CatMap)
    (vcs : List String) (tc : Option (List (String × String))) (ke gt : Bool)
    (p : Prepared) (hp : prepare df groupcols cm vcs tc = .ok p)
    (res : AggResult)
    (h : all_combos_non_exclusive_agg df groupcols cm vcs tc ke gt = .ok res) :
    res.category_mappings = p.cm2 ∧
    ∀ l, tc = some l →
      res.totalcodes = (if l = [] then some l else some p.tcFilled) := by
  rw [all_combos_non_exclusive_agg] at h
  rcases exceptBind_ok_inv h with ⟨p2, hp2, h2⟩
  rw [hp] at hp2
  injection hp2 with hpe
  subst hpe
  rcases exceptBind_ok_inv h2 with ⟨t, hm, h3⟩
  cases hke : ke with
  | false =>
    rw [hke] at h3
    rcases exceptBind_ok_inv h3 with ⟨tf, hkf, h4⟩
    constructor
    · have h6 := congrArg (fun z : Except AggError AggResult =>
        (z.toOption.map (fun r => r.category_mappings)).getD []) h4
      simp [Except.toOption] at h6
      exact h6.symm
    · intro l hl
      subst hl
      have h7 := congrArg (fun z : Except AggError AggResult =>
        (z.toOption.map (fun r => r.totalcodes)).getD none) h4
      simp [Except.toOption] at h7
      exact h7.symm
  | true =>
    rw [hke] at h3
    rcases exceptBind_ok_inv h3 with ⟨tf, hkf, h4⟩
    constructor
    · have h6 := congrArg (fun z : Except AggError AggResult =>
        (z.toOption.map (fun r => r.category_mappings)).getD []) h4
      simp [Except.toOption] at h6
      exact h6.symm
    · intro l hl
      subst hl
      have h7 := congrArg (fun z : Except AggError AggResult =>
        (z.toOption.map (fun r => r.totalcodes)).getD none) h4
      simp [Except.toOption] at h7
      exact h7.symm

theorem prepare_ok_truthy (df : DF) (groupcols : List String) (cm : CatMap)
    (vcs : List String) (tcl : List (String × String)) (hne : tcl ≠ [])
    (p : Prepared) (hp : prepare df groupcols cm vcs (some tcl) = .ok p) :
    ∃ cm1, addGroupcols df groupcols cm = .ok cm1 ∧
      addAllCodes tcl cm1 = .ok p.cm2 ∧
      p.tcFilled = fillTotalDefaults (p.cm2.map Prod.fst) tcl := by
  rw [prepare] at hp
  rcases exceptBind_ok_inv hp with ⟨cm1, h1, h2⟩
  refine ⟨cm1, h1, ?_⟩
  have htr : tcTruthy (some tcl) = true := by
    rw [tcTruthy, Bool.not_eq_true']
    exact List.isEmpty_eq_false.mpr hne
  by_cases hall : (vcs ++ cm1.map Prod.fst).all (fun c => decide (c ∈ df.cols)) = true
  · rw [if_pos hall, htr] at h2
    rcases exceptBind_ok_inv h2 with ⟨cm2, h3, h4⟩
    have h5 := congrArg (fun z : Except AggError Prepared =>
      (z.toOption.map (fun q => (q.cm2, q.tcFilled))).getD ([], [])) h4
    simp [Except.toOption] at h5
    rcases h5 with ⟨h5a, h5b⟩
    rw [← h5a, ← h5b]
    exact ⟨h3, rfl⟩
  · rw [if_neg hall] at h2
    exact absurd (h2 : (Except.error (AggError.keyError "column not found") :
      Except AggError Prepared) = Except.ok p) (fun hc => Except.noConfusion hc)

/-- C10 counterexample to the letter of the claim: supplying an EMPTY totalcodes
dict leaves the caller's dict untouched — `if not totalcodes: totalcodes = {}`
(src 130-131) rebinds the falsy empty dict to a fresh local one, so the default
`"Total"` entry for the (unset) dimension "A" is inserted into the local dict
only and the caller's dict stays empty after the call. -/
theorem totalcodes_empty_dict_counterexample :
    (all_combos_non_exclusive_agg exDf1 [] exCm1 ["n"] (some []) false false).toOption.map
      (fun r => r.totalcodes) = some (some []) := by
  decide

/-- C10 (amended): on a successful call with a NON-EMPTY (truthy) totalcodes
dict with distinct keys, the caller's configuration dicts are mutated in place
exactly as claimed: (a) every groupcol absent from `category_mappings` (and not
itself a totalcodes key) has gained the synthesized identity dimension built
from its distinct observed values; (b) every `(var, code)` entry of totalcodes
has planted `code ↦ "__ALL__"` inside dimension `var`'s mapping; (c) the
caller's totalcodes dict keeps its own entries and has gained a default
`"Total"` entry for every dimension it did not set. With a falsy totalcodes
argument (`None` or `{}`) the source rebinds a fresh local dict at src 130-131
and the caller's argument is left unchanged. -/
theorem config_dicts_mutated (df : DF) (groupcols : List String) (cm : CatMap)
    (vcs : List String) (tcl : List (String × String)) (ke gt : Bool)
    (hne : tcl ≠ []) (hnd : (tcl.map Prod.fst).Nodup)
    (res : AggResult)
    (h : all_combos_non_exclusive_agg df groupcols cm vcs (some tcl) ke gt = .ok res) :
    (∀ col ∈ groupcols, col ∉ cm.map Prod.fst → col ∉ tcl.map Prod.fst →
      dlookup col res.category_mappings = some (synthMapping (colOf df col))) ∧
    (∀ vc ∈ tcl, ∃ dim2, dlookup vc.1 res.category_mappings = some dim2 ∧
      dlookup vc.2 dim2 = some Spec.all) ∧
    (∃ tcf, res.totalcodes = some tcf ∧
      (∀ vc ∈ tcl, dlookup vc.1 tcf = some vc.2) ∧
      (∀ var ∈ res.category_mappings.map Prod.fst, var ∉ tcl.map Prod.fst →
        dlookup var tcf = some "Total")) := by
  have hpex : ∃ p, prepare df groupcols cm vcs (some tcl) = .ok p := by
    rw [all_combos_non_exclusive_agg] at h
    rcases exceptBind_ok_inv h with ⟨p, hp, _⟩
    exact ⟨p, hp⟩
  rcases hpex with ⟨p, hp⟩
  rcases prepare_ok_truthy df groupcols cm vcs tcl hne p hp with ⟨cm1, h1, h2a, htf⟩
  rcases model_out_config df groupcols cm vcs (some tcl) ke gt p hp res h with ⟨hcm, htc⟩
  have htc2 : res.totalcodes = some p.tcFilled := by
    rw [htc tcl rfl, if_neg hne]
  refine ⟨?_, ?_, ?_⟩
  · intro col hcol hnm hntc
    rw [hcm, addAllCodes_preserved tcl cm1 p.cm2 h2a col hntc]
    exact addGroupcols_lookup df groupcols cm cm1 h1 col hcol hnm
  · intro vc hvc
    rw [hcm]
    exact addAllCodes_lookup tcl cm1 p.cm2 hnd h2a vc hvc
  · refine ⟨fillTotalDefaults (p.cm2.map Prod.fst) tcl, by rw [htc2, htf], ?_, ?_⟩
    · intro vc hvc
      exact fillTotalDefaults_lookup_mem (p.cm2.map Prod.fst) tcl hnd vc hvc
    · intro var hvar hntc
      rw [hcm] at hvar
      exact fillTotalDefaults_lookup_unset (p.cm2.map Prod.fst) tcl var hvar hntc

/-- Witness for the amended C10: groupcol "A" with no mapping entry gains the
identity dimension over its observed value, totalcodes entry ("A","T") plants
the sentinel inside it, and the returned totalcodes keeps the caller's entry. -/
theorem config_dicts_mutated_witness :
    (∀ col ∈ ["A"], col ∉ ([] : CatMap).map Prod.fst →
      col ∉ ([("A", "T")] : List (String × String)).map Prod.fst →
      dlookup col (AggResult.mk [(["1"], some [1]), (["T"], some [1])] exDf1
        [("A", [("1", Spec.vals [Val.i 1]), ("T", Spec.all)])]
        (some [("A", "T")])).category_mappings = some (synthMapping (colOf exDf1 col))) ∧
    (∀ vc ∈ ([("A", "T")] : List (String × String)), ∃ dim2,
      dlookup vc.1 (AggResult.mk [(["1"], some [1]), (["T"], some [1])] exDf1
        [("A", [("1", Spec.vals [Val.i 1]), ("T", Spec.all)])]
        (some [("A", "T")])).category_mappings = some dim2 ∧
      dlookup vc.2 dim2 = some Spec.all) ∧
    (∃ tcf, (AggResult.mk [(["1"], some [1]), (["T"], some [1])] exDf1
        [("A", [("1", Spec.vals [Val.i 1]), ("T", Spec.all)])]
        (some [("A", "T")])).totalcodes = some tcf ∧
      (∀ vc ∈ ([("A", "T")] : List (String × String)), dlookup vc.1 tcf = some vc.2) ∧
      (∀ var ∈ ((AggResult.mk [(["1"], some [1]), (["T"], some [1])] exDf1
        [("A", [("1", Spec.vals [Val.i 1]), ("T", Spec.all)])]
        (some [("A", "T")])).category_mappings.map Prod.fst),
        var ∉ ([("A", "T")] : List (String × String)).map Prod.fst →
        dlookup var tcf = some "Total")) :=
  config_dicts_mutated exDf1 ["A"] [] ["n"] [("A", "T")] false false
    (by decide) (by decide)
    (AggResult.mk [(["1"], some [1]), (["T"], some [1])] exDf1
      [("A", [("1", Spec.vals [Val.i 1]), ("T", Spec.all)])]
      (some [("A", "T")])) rfl
